import Mathlib

/-!
Verification of the Acheron size-classed arena allocator (`allocator.hpp`).

The development shallowly embeds the local-policy data structures of the
allocator over `Nat`: machine words (`std::uint64_t`, `std::size_t`) become
natural numbers together with explicit `% 2^64` truncation at the places where
the C++ code relies on unsigned wraparound; bitmaps become functions from
word index to word value; each loop of the source becomes a structural
recursion over the loop counter.  Every definition mirrors the corresponding
function of `allocator.hpp`; theorems then settle the specification claims.
-/

set_option maxHeartbeats 1000000
set_option maxRecDepth 100000

namespace Acheron

/-! ### 64-bit machine-word helpers -/

/-- Embeds `2^64`, the modulus of `std::size_t` / `std::uint64_t` arithmetic. -/
def two64 : Nat := 2 ^ 64

/-- Embeds `~0ULL`, the all-ones 64-bit word. -/
def mask64 : Nat := 2 ^ 64 - 1

/-- Unsigned 64-bit subtraction `p - b` with wraparound, as used by
`arena::owns` and `arena::pointer_to_block_index` when a pointer difference
is converted to `std::size_t`. -/
def ptr_sub (p b : Nat) : Nat := (two64 + p - b) % two64

/-- Bitwise complement `~x` on a 64-bit word. -/
def complement64 (x : Nat) : Nat := mask64 ^^^ x

/-- Embeds `~0ULL << o` truncated to 64 bits: the mask keeping bit positions `≥ o`
(used by `try_bitmap_allocate` to drop L1 bits below the round-robin start). -/
def maskGe (o : Nat) : Nat := (mask64 <<< o) % two64

/-- Auxiliary scan for `countr_zero`: starting at bit `i` with the given
fuel, return the first set bit position, or `i + fuel` if none. -/
def ctzAux (w : Nat) : Nat → Nat → Nat
  | i, 0 => i
  | i, fuel + 1 => if w.testBit i then i else ctzAux w (i + 1) fuel

/-- Embeds `std::countr_zero` on a 64-bit word (returns 64 for the zero word). -/
def ctz64 (w : Nat) : Nat := ctzAux w 0 64

/-- Pointwise update of a word-indexed map, modelling a store to one
bitmap word. -/
def upd {α : Type} (f : Nat → α) (i : Nat) (v : α) : Nat → α :=
  fun j => if j = i then v else f j

/-! ### `size_class_manager` (`allocator.hpp`, lines 438-472) -/

/-- Embeds `size_class_manager::min_size`. -/
def min_size : Nat := 8

/-- Embeds `size_class_manager::max_size`. -/
def max_size : Nat := 4 * 1024 * 1024

/-- Embeds `size_class_manager::num_size_classes`. -/
def num_size_classes : Nat := 20

/-- Embeds `size_class_manager::round_to_size_class`.  `std::bit_width` is embedded
as `Nat.size` (the number of binary digits). -/
def round_to_size_class (size : Nat) : Nat :=
  if size ≤ min_size then min_size
  else if max_size < size then 0
  else 1 <<< Nat.size (size - 1)

/-- Embeds `size_class_manager::size_to_index`. -/
def size_to_index (size : Nat) : Nat :=
  if size ≤ min_size then 0
  else Nat.size (size - 1) - Nat.size (min_size - 1)

/-! #### Size-class facts -/

theorem size_pow_sub_one {k : Nat} (hk : 1 ≤ k) : Nat.size (2 ^ k - 1) = k := by
  have h1 : Nat.size (2 ^ k - 1) ≤ k := by
    rw [Nat.size_le]
    have : 1 ≤ 2 ^ k := Nat.one_le_two_pow
    omega
  have h2 : k - 1 < Nat.size (2 ^ k - 1) := by
    rw [Nat.lt_size]
    have h3 : 2 ^ (k - 1) * 2 = 2 ^ k := by
      rw [← Nat.pow_succ]
      congr 1
      omega
    have h4 : 1 ≤ 2 ^ (k - 1) := Nat.one_le_two_pow
    omega
  omega

/-- Claim C3: `round_to_size_class` returns 8 for `size ≤ 8` (including 0),
returns the sentinel 0 for `size > 4 MiB`, and otherwise returns the smallest
power of two that is `≥ size`; in particular it maps 40 to 64. -/
theorem C3_round_to_size_class_correct (size : Nat) :
    (size ≤ 8 → round_to_size_class size = 8) ∧
    (4 * 1024 * 1024 < size → round_to_size_class size = 0) ∧
    (8 < size → size ≤ 4 * 1024 * 1024 →
      size ≤ round_to_size_class size ∧
      (∃ k, round_to_size_class size = 2 ^ k) ∧
      (∀ m k, m = 2 ^ k → size ≤ m → round_to_size_class size ≤ m)) ∧
    round_to_size_class 40 = 64 := by
  refine ⟨?_, ?_, ?_, ?_⟩
  · intro h
    simp [ round_to_size_class, min_size, h]
  · intro h
    have h8 : ¬ (size ≤ min_size) := by simp [min_size]; omega
    simp [ round_to_size_class, h8, max_size]
    omega
  · intro h8 hmax
    have hn8 : ¬ (size ≤ min_size) := by simp [min_size]; omega
    have hnmax : ¬ (max_size < size) := by simp [max_size]; omega
    have hval : round_to_size_class size = 2 ^ Nat.size (size - 1) := by
      simp [ round_to_size_class, hn8, hnmax, Nat.shiftLeft_eq]
    refine ⟨?_, ⟨Nat.size (size - 1), hval⟩, ?_⟩
    · rw [hval]
      have := Nat.lt_size_self (size - 1)
      omega
    · intro m k hm hsm
      rw [hval, hm]
      apply Nat.pow_le_pow_right (by omega)
      have hs2 : size ≤ 2 ^ k := hm ▸ hsm
      rw [Nat.size_le]
      omega
  · have h39 : Nat.size 39 = 6 := by
      have h1 : Nat.size 39 ≤ 6 := by rw [Nat.size_le]; omega
      have h2 : 5 < Nat.size 39 := by rw [Nat.lt_size]; omega
      omega
    simp [ round_to_size_class, min_size, max_size, h39, Nat.shiftLeft_eq]

/-- Closed-form check of C3 at the concrete inputs 0, 8, 40 and `4 MiB + 1`. -/
theorem C3_round_to_size_class_correct_witness :
    round_to_size_class 0 = 8 ∧ round_to_size_class 8 = 8 ∧
    round_to_size_class 40 = 64 ∧ round_to_size_class (4 * 1024 * 1024 + 1) = 0 :=
  ⟨(C3_round_to_size_class_correct 0).1 (by omega),
   (C3_round_to_size_class_correct 8).1 (by omega),
   (C3_round_to_size_class_correct 40).2.2.2,
   (C3_round_to_size_class_correct (4 * 1024 * 1024 + 1)).2.1 (by omega)⟩

/-- Claim C4: for every size class `s = 2^k` with `3 ≤ k ≤ 22` (the classes
produced by `round_to_size_class`), `size_to_index s = k - 3`
(`= log2 s - log2 8`, and 0 for `s ≤ 8`), the result lies in `[0, 20)`,
and in particular `size_to_index 64 = 3` and `size_to_index (4 MiB) = 19`. -/
theorem C4_size_to_index_correct (s k : Nat) (hk3 : 3 ≤ k) (hk22 : k ≤ 22)
    (hs : s = 2 ^ k) :
    size_to_index s = k - 3 ∧ size_to_index s < 20 := by
  have hsz : Nat.size (s - 1) = k := by rw [hs]; exact size_pow_sub_one (by omega)
  have h7 : Nat.size (min_size - 1) = 3 := by
    have h1 : Nat.size 7 ≤ 3 := by rw [Nat.size_le]; omega
    have h2 : 2 < Nat.size 7 := by rw [Nat.lt_size]; omega
    simp [min_size]
    omega
  by_cases hc : s ≤ min_size
  · have h8k : (8 : Nat) ≤ 2 ^ k := by
      calc (8 : Nat) = 2 ^ 3 := by norm_num
      _ ≤ 2 ^ k := Nat.pow_le_pow_right (by omega) hk3
    have hs8 : s = 8 := by
      simp only [min_size] at hc
      omega
    have hsz7 : Nat.size 7 = k := by
      rw [hs8] at hsz
      simpa using hsz
    have hk : k = 3 := by
      have h1 : Nat.size 7 ≤ 3 := by rw [Nat.size_le]; omega
      have h2 : 2 < Nat.size 7 := by rw [Nat.lt_size]; omega
      omega
    simp [size_to_index, hc, hk]
  · simp [size_to_index, hc, hsz, h7]
    omega

/-- Closed-form check of C4 at the inputs named by the claim:
`size_to_index 64 = 3` and `size_to_index (4 MiB) = 19`. -/
theorem C4_size_to_index_correct_witness :
    size_to_index 64 = 3 ∧ size_to_index (4 * 1024 * 1024) = 19 :=
  ⟨by have := C4_size_to_index_correct 64 6 (by omega) (by omega) (by norm_num)
      omega,
   by have := C4_size_to_index_correct (4 * 1024 * 1024) 22 (by omega) (by omega)
        (by norm_num)
      omega⟩

/-! ### `arena` geometry (constructor, `allocator.hpp` lines 75-128)

All quantities are the ones computed once in the `arena` constructor from the
block size; the embedding keeps them as functions of `block_size`. -/

/-- Embeds `arena::arena_size` (64 MiB). -/
def arena_size : Nat := 64 * 1024 * 1024

/-- Embeds `arena::l2_per_l1`. -/
def l2_per_l1 : Nat := 64

/-- Embeds `theoretical_blocks = arena_size / block_size`. -/
def theoretical_blocks (bs : Nat) : Nat := arena_size / bs

/-- Embeds `l2_words = (theoretical_blocks + 63) / 64`. -/
def l2_words (bs : Nat) : Nat := (theoretical_blocks bs + 63) / 64

/-- Embeds `l1_bits = (l2_words + l2_per_l1 - 1) / l2_per_l1`. -/
def l1_bits (bs : Nat) : Nat := (l2_words bs + l2_per_l1 - 1) / l2_per_l1

/-- Embeds `l1_words = (l1_bits + 63) / 64`. -/
def l1_words (bs : Nat) : Nat := (l1_bits bs + 63) / 64

/-- Embeds `bitmap_bytes = (l2_words + l1_words) * sizeof(uint64_t)`. -/
def bitmap_bytes (bs : Nat) : Nat := (l2_words bs + l1_words bs) * 8

/-- Embeds `usable_capacity = arena_size - bitmap_bytes`. -/
def usable_capacity (bs : Nat) : Nat := arena_size - bitmap_bytes bs

/-- Embeds `num_blocks = usable_capacity / block_size`. -/
def num_blocks (bs : Nat) : Nat := usable_capacity bs / bs

/-- Embeds `block_shift = std::countr_zero(block_sz)`. -/
def block_shift (bs : Nat) : Nat := ctz64 bs

/-- The mutable state of one local-policy `arena`: base address, block size,
bump cursor, round-robin counter, and the two bitmaps (word index to 64-bit
word value). -/
structure Arena where
  base_addr : Nat
  block_size : Nat
  bump_offset : Nat
  alloc_count : Nat
  l1 : Nat → Nat
  l2 : Nat → Nat

/-- A freshly constructed arena: zero bump offset and counter, both bitmaps
zeroed (constructor, lines 75-128). -/
def fresh_arena (base bs : Nat) : Arena :=
  { base_addr := base, block_size := bs, bump_offset := 0, alloc_count := 0,
    l1 := fun _ => 0, l2 := fun _ => 0 }

/-- Embeds `arena::owns` (lines 208-217): the single unsigned
subtraction-and-compare `(ptr - base) < usable_capacity`. -/
def arena_owns (a : Arena) (p : Nat) : Bool :=
  ptr_sub p a.base_addr < usable_capacity a.block_size

/-- Embeds `arena::pointer_to_block_index` (lines 424-428). -/
def pointer_to_block_index (a : Arena) (p : Nat) : Nat :=
  ptr_sub p a.base_addr >>> block_shift a.block_size

/-- The scan of `arena::update_l1_for_region` (lines 384-398): does any L2
word of the region hold a set bit?  The source breaks out of the loop both on
`l2_region_start + i >= l2_words` and on the first nonzero word; since the
index grows with `i`, this equals the bounded `any` below. -/
def region_has_free (a : Arena) (l1_bit_index : Nat) : Bool :=
  (List.range l2_per_l1).any fun i =>
    decide (l1_bit_index * l2_per_l1 + i < l2_words a.block_size) &&
    decide (a.l2 (l1_bit_index * l2_per_l1 + i) ≠ 0)

/-- Embeds `arena::update_l1_for_region` (lines 380-417), local-policy branch. -/
def update_l1_for_region (a : Arena) (l1_bit_index : Nat) : Arena :=
  let l1_word := l1_bit_index / 64
  let l1_bit := l1_bit_index % 64
  if region_has_free a l1_bit_index then
    { a with l1 := upd a.l1 l1_word (a.l1 l1_word ||| (1 <<< l1_bit)) }
  else
    { a with l1 := upd a.l1 l1_word (a.l1 l1_word &&& complement64 (1 <<< l1_bit)) }

/-- Embeds `arena::mark_free` (lines 353-371), local-policy branch: set the L2 bit,
then unconditionally set the parent L1 bit. -/
def mark_free (a : Arena) (block_index : Nat) : Arena :=
  let l2_idx := block_index / 64
  let bit := block_index % 64
  let a1 := { a with l2 := upd a.l2 l2_idx (a.l2 l2_idx ||| (1 <<< bit)) }
  let l1_bit := l2_idx / l2_per_l1
  let l1_word := l1_bit / 64
  let l1_offset := l1_bit % 64
  { a1 with l1 := upd a1.l1 l1_word (a1.l1 l1_word ||| (1 <<< l1_offset)) }

/-- Embeds `arena::deallocate` (lines 195-199). -/
def arena_deallocate (a : Arena) (p : Nat) : Arena :=
  mark_free a (pointer_to_block_index a p)

/-- The successful-allocation write of `try_bitmap_allocate` (lines 325-336,
local-policy branch): clear the lowest set bit of L2 word `l2_idx`, and if
the word became zero rescan the region to update the parent L1 bit. -/
def clear_free_bit (a : Arena) (l1_index l2_idx : Nat) : Arena :=
  let w := a.l2 l2_idx
  let bit := ctz64 w
  let w2 := w &&& complement64 (1 <<< bit)
  let a1 := { a with l2 := upd a.l2 l2_idx w2 }
  if w2 = 0 then update_l1_for_region a1 l1_index else a1

/-- Inner loop of `arena::try_bitmap_allocate` (lines 296-340, local-policy
branch): walk the 64-word L2 region of L1 bit `l1_index` starting at word
offset `j` with the given remaining iteration count; on the first nonzero
word take its lowest set bit, and unless the block index is out of range
perform the `clear_free_bit` write and return the block address.  `none`
models both `break` exits and loop exhaustion, after which the outer loop
advances. -/
def scanL2 (a : Arena) (l1_index : Nat) : Nat → Nat → Option (Nat × Arena)
  | _, 0 => none
  | j, fuel + 1 =>
    let l2_idx := l1_index * l2_per_l1 + j
    if l2_words a.block_size ≤ l2_idx then none
    else
      let w := a.l2 l2_idx
      if w ≠ 0 then
        let block_index := l2_idx * 64 + ctz64 w
        if num_blocks a.block_size ≤ block_index then none
        else
          some (a.base_addr + (block_index <<< block_shift a.block_size),
                clear_free_bit a l1_index l2_idx)
      else scanL2 a l1_index (j + 1) fuel

/-- Outer loop of `arena::try_bitmap_allocate` (lines 277-342): visit the L1
words round-robin starting at `l1_word_idx`; on the first iteration with a
nonzero start offset, mask away the bits below the offset; descend into the
L2 region of the first set bit of the first nonzero (masked) word. -/
def scanL1 (a : Arena) (l1_word_idx l1_bit_offset : Nat) : Nat → Nat → Option (Nat × Arena)
  | _, 0 => none
  | i, fuel + 1 =>
    let idx := (l1_word_idx + i) % l1_words a.block_size
    let w0 := a.l1 idx
    let w := if i = 0 ∧ l1_bit_offset ≠ 0 then w0 &&& maskGe l1_bit_offset else w0
    if w ≠ 0 then
      let l1_bit := ctz64 w
      let l1_index := idx * 64 + l1_bit
      match scanL2 a l1_index 0 l2_per_l1 with
      | some r => some r
      | none => scanL1 a l1_word_idx l1_bit_offset (i + 1) fuel
    else scanL1 a l1_word_idx l1_bit_offset (i + 1) fuel

/-- Value `l1_word_idx = (counter % l1_bits) / 64`: the L1 word at which
`try_bitmap_allocate` starts its round-robin scan (`counter` being the
pre-increment `alloc_count`). -/
def scan_start_word (a : Arena) : Nat := (a.alloc_count % l1_bits a.block_size) / 64

/-- Value `l1_bit_offset = (counter % l1_bits) % 64`: the bit offset within the
starting L1 word. -/
def scan_start_off (a : Arena) : Nat := (a.alloc_count % l1_bits a.block_size) % 64

/-- Embeds `arena::try_bitmap_allocate` (lines 265-345), local-policy branch:
post-increment the round-robin counter, derive the starting L1 bit, and run
the two-level scan. -/
def try_bitmap_allocate (a : Arena) : Option Nat × Arena :=
  let a1 := { a with alloc_count := a.alloc_count + 1 }
  match scanL1 a1 (scan_start_word a) (scan_start_off a) 0 (l1_words a.block_size) with
  | some (p, a2) => (some p, a2)
  | none => (none, a1)

/-- Embeds `arena::allocate` (lines 159-185), local-policy branch: bump path while
`bump_offset < usable_capacity`, bitmap fallback otherwise. -/
def arena_allocate (a : Arena) : Option Nat × Arena :=
  if a.bump_offset < usable_capacity a.block_size then
    (some (a.base_addr + a.bump_offset),
     { a with bump_offset := a.bump_offset + a.block_size })
  else try_bitmap_allocate a

/-- State after one `arena::allocate` call, discarding the returned pointer. -/
def arena_allocate_state (a : Arena) : Arena := (arena_allocate a).2

/-- Embeds `arena::is_full` (lines 223-246). -/
def arena_is_full (a : Arena) : Bool :=
  if a.bump_offset < usable_capacity a.block_size then false
  else (List.range (l1_words a.block_size)).all fun i => a.l1 i == 0

/-! ### Claim C7: `arena::owns` -/

theorem two64_eq : two64 = 18446744073709551616 := by norm_num [two64]

theorem ptr_sub_of_le {p b : Nat} (hbp : b ≤ p) (hp : p < two64) :
    ptr_sub p b = p - b := by
  unfold ptr_sub
  have h1 : two64 + p - b = two64 + (p - b) := by omega
  rw [h1, Nat.add_mod_left]
  exact Nat.mod_eq_of_lt (by omega)

theorem ptr_sub_of_lt {p b : Nat} (hpb : p < b) :
    ptr_sub p b = two64 + p - b := by
  unfold ptr_sub
  have h64 := two64_eq
  exact Nat.mod_eq_of_lt (by omega)

/-- Claim C7: `owns(p)` is true exactly when `p` lies in
`[base, base + usable_capacity)`, and for `p` strictly below `base` the
unsigned subtraction wraps around to `2^64 + p - base` (a huge value) and
`owns` returns false. -/
theorem C7_owns_iff (a : Arena) (p : Nat)
    (hfit : a.base_addr + usable_capacity a.block_size ≤ two64)
    (hp : p < two64) :
    (arena_owns a p = true ↔
      a.base_addr ≤ p ∧ p < a.base_addr + usable_capacity a.block_size) ∧
    (p < a.base_addr →
      ptr_sub p a.base_addr = two64 + p - a.base_addr ∧
      usable_capacity a.block_size ≤ ptr_sub p a.base_addr ∧
      arena_owns a p = false) := by
  constructor
  · by_cases hb : a.base_addr ≤ p
    · simp only [arena_owns, ptr_sub_of_le hb hp, decide_eq_true_eq]
      omega
    · push_neg at hb
      simp only [arena_owns, ptr_sub_of_lt hb, decide_eq_true_eq]
      omega
  · intro hb
    refine ⟨ptr_sub_of_lt hb, ?_, ?_⟩
    · rw [ptr_sub_of_lt hb]
      omega
    · simp only [arena_owns, ptr_sub_of_lt hb, decide_eq_false_iff_not, not_lt]
      omega

/-- Check of C7 on a concrete arena at base 4096 with 8-byte blocks: the
base address is owned and the address just below the base is not. -/
theorem C7_owns_iff_witness :
    arena_owns (fresh_arena 4096 8) 4096 = true ∧
    arena_owns (fresh_arena 4096 8) 4095 = false := by
  have h64 := two64_eq
  have hu : usable_capacity 8 = 66060032 := by decide
  have hfit : (4096 : Nat) + usable_capacity 8 ≤ two64 := by omega
  have h1 := C7_owns_iff (fresh_arena 4096 8) 4096 hfit (by omega)
  have h3 := C7_owns_iff (fresh_arena 4096 8) 4095 hfit (by omega)
  refine ⟨h1.1.mpr ⟨le_refl _, ?_⟩, (h3.2 (by norm_num [fresh_arena])).2.2⟩
  show (4096 : Nat) < 4096 + usable_capacity 8
  omega

/-! ### Claim C2: the bump path can hand out a block overlapping the bitmaps

With 4 MiB blocks, `usable_capacity = 2^26 - 16 = 67108848` is not a multiple
of the block size.  After 15 allocations the bump offset is `62914560 <
usable_capacity`, so the 16th allocation is served from the bump path at
offset 62914560 even though that block extends to `62914560 + 2^22 =
67108864`, past the start of the bitmap storage at `usable_capacity`. -/

/-- Claim C2 fails on the code: from a fresh local arena with 4 MiB blocks at
base 0, the 16th `allocate()` returns offset 62914560, whose block extends
`4194304 - 16` bytes past `base + usable_capacity` into the bitmap words
(which start at `usable_capacity = 67108848` and end at the 64 MiB mark). -/
theorem C2_bump_block_overlaps_bitmap :
    (arena_allocate (arena_allocate_state^[15] (fresh_arena 0 (4 * 1024 * 1024)))).1 =
      some 62914560 ∧
    usable_capacity (4 * 1024 * 1024) = 67108848 ∧
    usable_capacity (4 * 1024 * 1024) < 62914560 + 4 * 1024 * 1024 := by
  refine ⟨?_, by decide, by decide⟩
  decide

/-! ### Bit-level lemmas about the word helpers -/

theorem ctzAux_le (w : Nat) : ∀ fuel i, ctzAux w i fuel ≤ i + fuel := by
  intro fuel
  induction fuel with
  | zero => intro i; simp [ctzAux]
  | succ n ih =>
    intro i
    simp only [ctzAux]
    split
    · omega
    · have := ih (i + 1)
      omega

theorem ctzAux_min (w : Nat) :
    ∀ fuel i j, i ≤ j → j < ctzAux w i fuel → w.testBit j = false := by
  intro fuel
  induction fuel with
  | zero => intro i j hij hj; simp [ctzAux] at hj; omega
  | succ n ih =>
    intro i j hij hj
    simp only [ctzAux] at hj
    by_cases hb : w.testBit i
    · simp [hb] at hj; omega
    · simp [hb] at hj
      rcases Nat.eq_or_lt_of_le hij with h | h
      · simpa [← h] using hb
      · exact ih (i + 1) j h hj

theorem ctzAux_hit (w : Nat) :
    ∀ fuel i, ctzAux w i fuel < i + fuel → w.testBit (ctzAux w i fuel) = true := by
  intro fuel
  induction fuel with
  | zero => intro i h; simp [ctzAux] at h
  | succ n ih =>
    intro i h
    simp only [ctzAux] at h ⊢
    by_cases hb : w.testBit i
    · simp [hb]
    · simp only [hb, if_false, Bool.false_eq_true] at h ⊢
      exact ih (i + 1) (by omega)

theorem ctz64_min (w : Nat) : ∀ j, j < ctz64 w → w.testBit j = false :=
  fun j hj => ctzAux_min w 64 0 j (Nat.zero_le j) hj

theorem ctz64_le (w : Nat) : ctz64 w ≤ 64 := by
  have := ctzAux_le w 64 0
  simpa [ctz64] using this

theorem ctz64_lt_64 {w : Nat} (hw : w ≠ 0) (hlt : w < two64) : ctz64 w < 64 := by
  by_contra hge
  push_neg at hge
  apply hw
  apply Nat.zero_of_testBit_eq_false
  intro i
  by_cases hi : i < 64
  · exact ctz64_min w i (by omega)
  · apply Nat.testBit_eq_false_of_lt
    calc w < two64 := hlt
    _ ≤ 2 ^ i := by
        rw [two64]
        exact Nat.pow_le_pow_right (by omega) (by omega)

theorem ctz64_testBit {w : Nat} (hw : w ≠ 0) (hlt : w < two64) :
    w.testBit (ctz64 w) = true := by
  have h := ctz64_lt_64 hw hlt
  have := ctzAux_hit w 64 0 (by simpa [ctz64] using h)
  simpa [ctz64] using this

theorem ctz64_two_pow {k : Nat} (hk : k < 64) : ctz64 (2 ^ k) = k := by
  have hw : (2 : Nat) ^ k ≠ 0 := Nat.pos_iff_ne_zero.mp (Nat.pos_pow_of_pos k (by omega))
  have hlt : (2 : Nat) ^ k < two64 := by
    rw [two64]
    exact Nat.pow_lt_pow_right (by omega) hk
  have := ctz64_testBit hw hlt
  rw [Nat.testBit_two_pow] at this
  have h2 : k = ctz64 (2 ^ k) := by simpa using this
  omega

theorem one_shiftLeft_eq (n : Nat) : 1 <<< n = 2 ^ n := by
  simp [Nat.shiftLeft_eq]

theorem shiftLeft_pow_lt {off : Nat} (hoff : off < 64) : 1 <<< off < two64 := by
  rw [one_shiftLeft_eq, two64]
  exact Nat.pow_lt_pow_right (by omega) hoff

theorem complement64_lt {x : Nat} (hx : x < two64) : complement64 x < two64 := by
  have hm : mask64 < two64 := by rw [mask64, two64]; omega
  exact Nat.xor_lt_two_pow hm hx

theorem testBit_complement64 {x j : Nat} (hj : j < 64) :
    (complement64 x).testBit j = !(x.testBit j) := by
  have hm : mask64.testBit j = true := by
    rw [mask64, Nat.testBit_two_pow_sub_one]
    simpa using hj
  simp [complement64, Nat.testBit_xor, hm]

theorem testBit_maskGe {o j : Nat} (hj : j < 64) :
    (maskGe o).testBit j = decide (o ≤ j) := by
  simp only [maskGe, two64, mask64, Nat.testBit_mod_two_pow, Nat.testBit_shiftLeft,
    Nat.testBit_two_pow_sub_one, ge_iff_le]
  by_cases h : o ≤ j
  · simp [h, hj]
    omega
  · simp [h, hj]

theorem exists_testBit_lt_64 {w : Nat} (hw : w ≠ 0) (hlt : w < two64) :
    ∃ j, j < 64 ∧ w.testBit j = true :=
  ⟨ctz64 w, ctz64_lt_64 hw hlt, ctz64_testBit hw hlt⟩

theorem or_shiftLeft_lt {w off : Nat} (hw : w < two64) (hoff : off < 64) :
    (w ||| 1 <<< off) < two64 :=
  Nat.or_lt_two_pow hw (shiftLeft_pow_lt hoff)

theorem and_complement_lt (w : Nat) {x : Nat} (hx : x < two64) :
    (w &&& complement64 x) < two64 :=
  Nat.and_lt_two_pow w (complement64_lt hx)

theorem upd_self {α : Type} (f : Nat → α) (i : Nat) (v : α) : (upd f i v) i = v := by
  simp [upd]

theorem upd_ne {α : Type} (f : Nat → α) (i : Nat) (v : α) {j : Nat} (h : j ≠ i) :
    (upd f i v) j = f j := by
  simp [upd, h]

/-- Setting bit `off` of word `wi` of a word map, observed through bit
`b % 64` of word `b / 64`. -/
theorem testBit_upd_or (f : Nat → Nat) (wi off b : Nat) (hoff : off < 64) :
    (((upd f wi (f wi ||| 1 <<< off)) (b / 64)).testBit (b % 64) = true ↔
      ((f (b / 64)).testBit (b % 64) = true ∨ b = wi * 64 + off)) := by
  have hb64 : b % 64 < 64 := Nat.mod_lt b (by omega)
  by_cases h : b / 64 = wi
  · rw [h, upd_self]
    rw [Nat.testBit_lor, one_shiftLeft_eq, Nat.testBit_two_pow]
    simp only [Bool.or_eq_true, decide_eq_true_eq]
    constructor
    · rintro (hl | hr)
      · exact Or.inl hl
      · right; omega
    · rintro (hl | hr)
      · exact Or.inl hl
      · right; omega
  · have hne : b ≠ wi * 64 + off := by
      intro hb
      apply h
      omega
    rw [upd_ne f wi _ h]
    simp [hne]

/-- Clearing bit `off` of word `wi` of a word map, observed through bit
`b % 64` of word `b / 64`. -/
theorem testBit_upd_and_not (f : Nat → Nat) (wi off b : Nat) (hoff : off < 64) :
    (((upd f wi (f wi &&& complement64 (1 <<< off))) (b / 64)).testBit (b % 64) = true ↔
      ((f (b / 64)).testBit (b % 64) = true ∧ b ≠ wi * 64 + off)) := by
  have hb64 : b % 64 < 64 := Nat.mod_lt b (by omega)
  by_cases h : b / 64 = wi
  · rw [h, upd_self]
    rw [Nat.testBit_land, testBit_complement64 hb64, one_shiftLeft_eq,
      Nat.testBit_two_pow]
    simp only [Bool.and_eq_true, Bool.not_eq_true', decide_eq_false_iff_not]
    constructor
    · rintro ⟨hl, hr⟩
      exact ⟨hl, by omega⟩
    · rintro ⟨hl, hr⟩
      exact ⟨hl, by omega⟩
  · have hne : b ≠ wi * 64 + off := by
      intro hb
      apply h
      omega
    rw [upd_ne f wi _ h]
    simp [hne]

/-! ### Arena invariants and geometry facts -/

/-- Both bitmaps hold 64-bit word values. -/
def WFbitmaps (a : Arena) : Prop :=
  (∀ i, a.l1 i < two64) ∧ (∀ i, a.l2 i < two64)

/-- The L1 summary is exact: L1 bit `b` is set iff some L2 word of its
64-word region (clipped to `l2_words`) is nonzero. -/
def ExactL1 (a : Arena) : Prop :=
  ∀ b, b < l1_words a.block_size * 64 →
    ((a.l1 (b / 64)).testBit (b % 64) = true ↔
      ∃ j, j < l2_per_l1 ∧ b * l2_per_l1 + j < l2_words a.block_size ∧
        a.l2 (b * l2_per_l1 + j) ≠ 0)

/-- Every set L2 bit denotes a block index below `num_blocks`. -/
def ValidBits (a : Arena) : Prop :=
  ∀ bi, bi < l2_words a.block_size * 64 →
    (a.l2 (bi / 64)).testBit (bi % 64) = true → bi < num_blocks a.block_size

/-- Some in-range block is marked free in the L2 bitmap. -/
def FreeBlockExists (a : Arena) : Prop :=
  ∃ bi, bi < num_blocks a.block_size ∧ (a.l2 (bi / 64)).testBit (bi % 64) = true

/-- The block sizes the allocator constructs arenas for: the 20 size classes
`2^3 .. 2^22`. -/
def GoodBS (bs : Nat) : Prop := ∃ k, 3 ≤ k ∧ k ≤ 22 ∧ bs = 2 ^ k

theorem theoretical_le_l2_words_mul (bs : Nat) :
    theoretical_blocks bs ≤ l2_words bs * 64 := by
  unfold l2_words
  omega

theorem l2_words_le_l1_bits_mul (bs : Nat) : l2_words bs ≤ l1_bits bs * l2_per_l1 := by
  unfold l1_bits l2_per_l1
  omega

theorem l1_bits_le_l1_words_mul (bs : Nat) : l1_bits bs ≤ l1_words bs * 64 := by
  unfold l1_words
  omega

theorem num_blocks_le_theoretical (bs : Nat) :
    num_blocks bs ≤ theoretical_blocks bs :=
  Nat.div_le_div_right (Nat.sub_le _ _)

theorem theoretical_blocks_ge {bs : Nat} (h : GoodBS bs) :
    16 ≤ theoretical_blocks bs := by
  obtain ⟨k, h3, h22, rfl⟩ := h
  unfold theoretical_blocks arena_size
  have harena : (64 * 1024 * 1024 : Nat) = 2 ^ 26 := by norm_num
  rw [harena, Nat.pow_div (by omega) (by omega)]
  calc (16 : Nat) = 2 ^ 4 := by norm_num
  _ ≤ 2 ^ (26 - k) := Nat.pow_le_pow_right (by omega) (by omega)

theorem l2_words_pos {bs : Nat} (h : GoodBS bs) : 0 < l2_words bs := by
  have := theoretical_blocks_ge h
  unfold l2_words
  omega

theorem l1_bits_pos {bs : Nat} (h : GoodBS bs) : 0 < l1_bits bs := by
  have := l2_words_pos h
  unfold l1_bits l2_per_l1
  omega

theorem l1_words_pos {bs : Nat} (h : GoodBS bs) : 0 < l1_words bs := by
  have := l1_bits_pos h
  unfold l1_words
  omega

theorem bs_pos {bs : Nat} (h : GoodBS bs) : 0 < bs := by
  obtain ⟨k, _, _, rfl⟩ := h
  exact Nat.pos_pow_of_pos k (by omega)

theorem num_blocks_lt_theoretical {bs : Nat} (h : GoodBS bs) :
    num_blocks bs < theoretical_blocks bs := by
  obtain ⟨k, h3, h22, rfl⟩ := h
  have hdvd : (2 : Nat) ^ k ∣ arena_size := by
    unfold arena_size
    have harena : (64 * 1024 * 1024 : Nat) = 2 ^ 26 := by norm_num
    rw [harena]
    exact pow_dvd_pow 2 (by omega)
  have hpos : (0 : Nat) < 2 ^ k := Nat.pos_pow_of_pos k (by omega)
  have hbb : 0 < bitmap_bytes (2 ^ k) := by
    have := @l2_words_pos (2 ^ k) ⟨k, h3, h22, rfl⟩
    unfold bitmap_bytes
    omega
  have husable : usable_capacity (2 ^ k) < arena_size := by
    unfold usable_capacity
    have : 0 < arena_size := by unfold arena_size; norm_num
    omega
  unfold num_blocks theoretical_blocks
  rw [Nat.div_lt_iff_lt_mul hpos]
  calc usable_capacity (2 ^ k) < arena_size := husable
  _ = arena_size / 2 ^ k * 2 ^ k := (Nat.div_mul_cancel hdvd).symm

theorem block_shift_eq {bs k : Nat} (h3 : 3 ≤ k) (h22 : k ≤ 22) (hbs : bs = 2 ^ k) :
    block_shift bs = k := by
  rw [hbs, block_shift, ctz64_two_pow (by omega)]

theorem shiftLeft_block_shift {bs : Nat} (h : GoodBS bs) (x : Nat) :
    x <<< block_shift bs = x * bs := by
  obtain ⟨k, h3, h22, rfl⟩ := h
  rw [block_shift_eq h3 h22 rfl, Nat.shiftLeft_eq]

theorem shiftRight_block_shift {bs : Nat} (h : GoodBS bs) (x : Nat) :
    (x * bs) >>> block_shift bs = x := by
  obtain ⟨k, h3, h22, rfl⟩ := h
  rw [block_shift_eq h3 h22 rfl, Nat.shiftRight_eq_div_pow]
  exact Nat.mul_div_cancel x (Nat.pos_pow_of_pos k (by omega))

/-! ### Characterization of the bitmap-path loops -/

theorem scanL2_none_word_eq_zero (a : Arena) (l1_index : Nat)
    (hwf2 : ∀ i, a.l2 i < two64) (hval : ValidBits a) :
    ∀ fuel j0, scanL2 a l1_index j0 fuel = none →
      ∀ j, j0 ≤ j → j < j0 + fuel →
        l1_index * l2_per_l1 + j < l2_words a.block_size →
        a.l2 (l1_index * l2_per_l1 + j) = 0 := by
  intro fuel
  induction fuel with
  | zero => intro j0 _ j h1 h2 _; omega
  | succ n ih =>
    intro j0 hnone j hj1 hj2 hjlt
    rw [scanL2] at hnone
    by_cases hout : l2_words a.block_size ≤ l1_index * l2_per_l1 + j0
    · exfalso
      have : l1_index * l2_per_l1 + j0 ≤ l1_index * l2_per_l1 + j := by omega
      omega
    · rw [if_neg hout] at hnone
      push_neg at hout
      by_cases hw : a.l2 (l1_index * l2_per_l1 + j0) ≠ 0
      · exfalso
        rw [if_pos hw] at hnone
        set l2_idx := l1_index * l2_per_l1 + j0 with hidx
        have hbit : ctz64 (a.l2 l2_idx) < 64 := ctz64_lt_64 hw (hwf2 l2_idx)
        have hbi : (a.l2 ((l2_idx * 64 + ctz64 (a.l2 l2_idx)) / 64)).testBit
            ((l2_idx * 64 + ctz64 (a.l2 l2_idx)) % 64) = true := by
          have hdiv : (l2_idx * 64 + ctz64 (a.l2 l2_idx)) / 64 = l2_idx := by omega
          have hmod : (l2_idx * 64 + ctz64 (a.l2 l2_idx)) % 64 = ctz64 (a.l2 l2_idx) := by
            omega
          rw [hdiv, hmod]
          exact ctz64_testBit hw (hwf2 l2_idx)
        have hlt : l2_idx * 64 + ctz64 (a.l2 l2_idx) < l2_words a.block_size * 64 := by
          have : l2_idx + 1 ≤ l2_words a.block_size := hout
          calc l2_idx * 64 + ctz64 (a.l2 l2_idx) < l2_idx * 64 + 64 := by omega
          _ = (l2_idx + 1) * 64 := by ring
          _ ≤ l2_words a.block_size * 64 := by
              exact Nat.mul_le_mul_right 64 this
        have hnb := hval _ hlt hbi
        rw [if_neg (by omega)] at hnone
        exact Option.some_ne_none _ hnone
      · push_neg at hw
        rw [if_neg (by simpa using hw)] at hnone
        rcases Nat.eq_or_lt_of_le hj1 with h | h
        · rw [← h]
          exact hw
        · exact ih (j0 + 1) hnone j h (by omega) hjlt

theorem scanL2_some_shape (a : Arena) (l1_index : Nat) :
    ∀ fuel j0 r, scanL2 a l1_index j0 fuel = some r →
      ∃ j, j0 ≤ j ∧ j < j0 + fuel ∧
        l1_index * l2_per_l1 + j < l2_words a.block_size ∧
        a.l2 (l1_index * l2_per_l1 + j) ≠ 0 ∧
        (l1_index * l2_per_l1 + j) * 64 + ctz64 (a.l2 (l1_index * l2_per_l1 + j)) <
          num_blocks a.block_size ∧
        r = (a.base_addr + (((l1_index * l2_per_l1 + j) * 64 +
              ctz64 (a.l2 (l1_index * l2_per_l1 + j))) <<< block_shift a.block_size),
             clear_free_bit a l1_index (l1_index * l2_per_l1 + j)) := by
  intro fuel
  induction fuel with
  | zero => intro j0 r h; simp [scanL2] at h
  | succ n ih =>
    intro j0 r hsome
    rw [scanL2] at hsome
    by_cases hout : l2_words a.block_size ≤ l1_index * l2_per_l1 + j0
    · rw [if_pos hout] at hsome
      exact absurd hsome (Option.noConfusion)
    · rw [if_neg hout] at hsome
      push_neg at hout
      by_cases hw : a.l2 (l1_index * l2_per_l1 + j0) ≠ 0
      · rw [if_pos hw] at hsome
        by_cases hnb : num_blocks a.block_size ≤
            (l1_index * l2_per_l1 + j0) * 64 + ctz64 (a.l2 (l1_index * l2_per_l1 + j0))
        · rw [if_pos hnb] at hsome
          exact absurd hsome (Option.noConfusion)
        · rw [if_neg hnb] at hsome
          push_neg at hnb
          refine ⟨j0, le_refl j0, by omega, hout, hw, hnb, ?_⟩
          exact (Option.some_inj.mp hsome).symm
      · push_neg at hw
        rw [if_neg (by simpa using hw)] at hsome
        obtain ⟨j, hj1, hj2, h3, h4, h5, h6⟩ := ih (j0 + 1) r hsome
        exact ⟨j, by omega, by omega, h3, h4, h5, h6⟩

theorem scanL1_some_shape (a : Arena) (wi off : Nat) :
    ∀ fuel i0 r, scanL1 a wi off i0 fuel = some r →
      ∃ l1_index, scanL2 a l1_index 0 l2_per_l1 = some r := by
  intro fuel
  induction fuel with
  | zero => intro i0 r h; simp [scanL1] at h
  | succ n ih =>
    intro i0 r hsome
    rw [scanL1] at hsome
    by_cases hnz : (if i0 = 0 ∧ off ≠ 0
        then a.l1 ((wi + i0) % l1_words a.block_size) &&& maskGe off
        else a.l1 ((wi + i0) % l1_words a.block_size)) ≠ 0
    · rw [if_pos hnz] at hsome
      simp only [] at hsome
      cases hsc : scanL2 a
          (((wi + i0) % l1_words a.block_size) * 64 +
            ctz64 (if i0 = 0 ∧ off ≠ 0
              then a.l1 ((wi + i0) % l1_words a.block_size) &&& maskGe off
              else a.l1 ((wi + i0) % l1_words a.block_size))) 0 l2_per_l1 with
      | some r' =>
        rw [hsc] at hsome
        simp only [] at hsome
        have hr : r' = r := Option.some_inj.mp hsome
        exact ⟨_, hr ▸ hsc⟩
      | none =>
        rw [hsc] at hsome
        simp only [] at hsome
        exact ih (i0 + 1) r hsome
    · rw [if_neg hnz] at hsome
      exact ih (i0 + 1) r hsome

theorem scanL1_none_masked_zero (a : Arena) (wi off : Nat)
    (hwf : WFbitmaps a) (hex : ExactL1 a) (hval : ValidBits a)
    (hlw : 0 < l1_words a.block_size) :
    ∀ fuel i0, scanL1 a wi off i0 fuel = none →
      ∀ i, i0 ≤ i → i < i0 + fuel →
        (if i = 0 ∧ off ≠ 0
         then a.l1 ((wi + i) % l1_words a.block_size) &&& maskGe off
         else a.l1 ((wi + i) % l1_words a.block_size)) = 0 := by
  intro fuel
  induction fuel with
  | zero => intro i0 _ i h1 h2; omega
  | succ n ih =>
    intro i0 hnone i hi1 hi2
    rw [scanL1] at hnone
    by_cases hnz : (if i0 = 0 ∧ off ≠ 0
        then a.l1 ((wi + i0) % l1_words a.block_size) &&& maskGe off
        else a.l1 ((wi + i0) % l1_words a.block_size)) ≠ 0
    · exfalso
      set idx := (wi + i0) % l1_words a.block_size with hidxdef
      set w := (if i0 = 0 ∧ off ≠ 0 then a.l1 idx &&& maskGe off else a.l1 idx)
        with hwdef
      have hwlt : w < two64 := by
        rw [hwdef]
        split
        · exact Nat.and_lt_two_pow _ (Nat.mod_lt _ (by rw [two64]; positivity))
        · exact hwf.1 idx
      have htb : w.testBit (ctz64 w) = true := ctz64_testBit hnz hwlt
      have hbit : ctz64 w < 64 := ctz64_lt_64 hnz hwlt
      have htb0 : (a.l1 idx).testBit (ctz64 w) = true := by
        by_cases hcond : i0 = 0 ∧ off ≠ 0
        · have hw2 : w = a.l1 idx &&& maskGe off := by rw [hwdef, if_pos hcond]
          nth_rewrite 1 [hw2] at htb
          rw [Nat.testBit_land] at htb
          exact ((Bool.and_eq_true _ _).mp htb).1
        · have hw2 : w = a.l1 idx := by rw [hwdef, if_neg hcond]
          nth_rewrite 1 [hw2] at htb
          exact htb
      have hidxlt : idx < l1_words a.block_size := Nat.mod_lt _ hlw
      have hblt : idx * 64 + ctz64 w < l1_words a.block_size * 64 := by
        calc idx * 64 + ctz64 w < idx * 64 + 64 := by omega
        _ = (idx + 1) * 64 := by ring
        _ ≤ l1_words a.block_size * 64 := Nat.mul_le_mul_right 64 hidxlt
      have hdiv : (idx * 64 + ctz64 w) / 64 = idx := by omega
      have hmod : (idx * 64 + ctz64 w) % 64 = ctz64 w := by omega
      have hexb := (hex (idx * 64 + ctz64 w) hblt).mp (by rw [hdiv, hmod]; exact htb0)
      obtain ⟨j, hj64, hjlt, hjnz⟩ := hexb
      rw [if_pos hnz] at hnone
      simp only [] at hnone
      cases hsc : scanL2 a (idx * 64 + ctz64 w) 0 l2_per_l1 with
      | some r' =>
        rw [hsc] at hnone
        simp at hnone
      | none =>
        have hzero := scanL2_none_word_eq_zero a (idx * 64 + ctz64 w) hwf.2 hval
          l2_per_l1 0 hsc j (Nat.zero_le j) (by omega) hjlt
        exact hjnz hzero
    · push_neg at hnz
      rw [if_neg (by simpa using hnz)] at hnone
      rcases Nat.eq_or_lt_of_le hi1 with h | h
      · rw [← h]
        exact hnz
      · exact ih (i0 + 1) hnone i h (by omega)

/-! ### The bitmap path: what the round-robin scan can and cannot see -/

/-- The L1 bit positions the next bitmap scan examines: every bit of every
L1 word except the bits strictly below the start offset inside the starting
word (those are masked away on the first iteration and the rotation never
returns to them). -/
def VisibleL1 (a : Arena) (b : Nat) : Prop :=
  b < l1_words a.block_size * 64 ∧
  ¬ (b / 64 = scan_start_word a ∧ b % 64 < scan_start_off a)

theorem scan_start_word_lt {a : Arena} (hbs : GoodBS a.block_size) :
    scan_start_word a < l1_words a.block_size := by
  have h1 : a.alloc_count % l1_bits a.block_size < l1_bits a.block_size :=
    Nat.mod_lt _ (l1_bits_pos hbs)
  have h2 := l1_bits_le_l1_words_mul a.block_size
  unfold scan_start_word
  omega

theorem try_bitmap_finds_block (a : Arena) (hbs : GoodBS a.block_size)
    (hwf : WFbitmaps a) (hex : ExactL1 a) (hval : ValidBits a)
    (hvis : ∃ b, VisibleL1 a b ∧ (a.l1 (b / 64)).testBit (b % 64) = true) :
    ∃ bi, bi < num_blocks a.block_size ∧
      (a.l2 (bi / 64)).testBit (bi % 64) = true ∧
      (try_bitmap_allocate a).1 = some (a.base_addr + bi * a.block_size) := by
  obtain ⟨b, ⟨hblt, hnvis⟩, hbset⟩ := hvis
  rw [try_bitmap_allocate]
  set a1 : Arena := { a with alloc_count := a.alloc_count + 1 } with ha1
  have hl1 : a1.l1 = a.l1 := rfl
  have hl2 : a1.l2 = a.l2 := rfl
  have hbsz : a1.block_size = a.block_size := rfl
  have hlwpos : 0 < l1_words a.block_size := l1_words_pos hbs
  cases hscan : scanL1 a1 (scan_start_word a) (scan_start_off a) 0
      (l1_words a.block_size) with
  | none =>
    exfalso
    have hall := scanL1_none_masked_zero a1 (scan_start_word a) (scan_start_off a)
      hwf hex hval hlwpos (l1_words a.block_size) 0 hscan
    set wb := b / 64 with hwb
    set ob := b % 64 with hob
    have hob64 : ob < 64 := Nat.mod_lt b (by omega)
    have hwblt : wb < l1_words a.block_size := by
      have : b < l1_words a.block_size * 64 := hblt
      omega
    have hwilt : scan_start_word a < l1_words a.block_size := scan_start_word_lt hbs
    -- the step of the rotation that visits word `wb`
    set i := if scan_start_word a ≤ wb then wb - scan_start_word a
             else wb + l1_words a.block_size - scan_start_word a with hi
    have hiwin : i < l1_words a.block_size := by
      rw [hi]
      split <;> omega
    have hidx : (scan_start_word a + i) % l1_words a.block_size = wb := by
      rw [hi]
      by_cases hc : scan_start_word a ≤ wb
      · rw [if_pos hc]
        have : scan_start_word a + (wb - scan_start_word a) = wb := by omega
        rw [this]
        exact Nat.mod_eq_of_lt hwblt
      · rw [if_neg hc]
        have : scan_start_word a + (wb + l1_words a.block_size - scan_start_word a) =
            wb + l1_words a.block_size := by omega
        rw [this, Nat.add_mod_right]
        exact Nat.mod_eq_of_lt hwblt
    have hz := hall i (Nat.zero_le i) (by omega)
    rw [hidx] at hz
    by_cases hcond : i = 0 ∧ scan_start_off a ≠ 0
    · rw [if_pos hcond] at hz
      have hwbwi : wb = scan_start_word a := by
        have h0 := hidx
        rw [hcond.1, Nat.add_zero] at h0
        rw [← h0, Nat.mod_eq_of_lt hwilt]
      have hoffle : scan_start_off a ≤ ob := by
        by_contra hlt
        exact hnvis ⟨hwbwi, by omega⟩
      have hfalse : (a.l1 wb &&& maskGe (scan_start_off a)).testBit ob = false := by
        rw [hl1] at hz
        rw [hz]
        exact Nat.zero_testBit ob
      have htrue : (a.l1 wb &&& maskGe (scan_start_off a)).testBit ob = true := by
        rw [Nat.testBit_land, hbset, testBit_maskGe hob64]
        simpa using hoffle
      rw [htrue] at hfalse
      exact Bool.noConfusion hfalse
    · rw [if_neg hcond] at hz
      rw [hl1] at hz
      rw [hz] at hbset
      simp at hbset
  | some r =>
    obtain ⟨addr, a2⟩ := r
    obtain ⟨l1_index, hsc⟩ := scanL1_some_shape a1 (scan_start_word a)
      (scan_start_off a) (l1_words a.block_size) 0 (addr, a2) hscan
    obtain ⟨j, _, hj64, hjlt, hjnz, hbnb, hr⟩ :=
      scanL2_some_shape a1 l1_index l2_per_l1 0 (addr, a2) hsc
    set l2_idx := l1_index * l2_per_l1 + j with hl2idx
    set bi := l2_idx * 64 + ctz64 (a1.l2 l2_idx) with hbi
    have hctz : ctz64 (a1.l2 l2_idx) < 64 := ctz64_lt_64 hjnz (hwf.2 l2_idx)
    refine ⟨bi, hbnb, ?_, ?_⟩
    · have hdiv : bi / 64 = l2_idx := by omega
      have hmod : bi % 64 = ctz64 (a1.l2 l2_idx) := by omega
      rw [hdiv, hmod]
      exact ctz64_testBit hjnz (hwf.2 l2_idx)
    · have e1 : a1.base_addr = a.base_addr := rfl
      have e2 : a1.block_size = a.block_size := rfl
      have haddr : addr = a.base_addr + bi * a.block_size := by
        have h1 := congrArg Prod.fst hr
        simp only [] at h1
        rw [h1, e1, e2, shiftLeft_block_shift hbs bi]
      simp only []
      rw [haddr]

theorem try_bitmap_sound (a : Arena) (hbs : GoodBS a.block_size)
    (hwf : WFbitmaps a) :
    ∀ p a2, try_bitmap_allocate a = (some p, a2) →
      ∃ bi, bi < num_blocks a.block_size ∧
        (a.l2 (bi / 64)).testBit (bi % 64) = true ∧
        p = a.base_addr + bi * a.block_size := by
  intro p a2 hres
  rw [try_bitmap_allocate] at hres
  set a1 : Arena := { a with alloc_count := a.alloc_count + 1 } with ha1
  cases hscan : scanL1 a1 (scan_start_word a) (scan_start_off a) 0
      (l1_words a.block_size) with
  | none =>
    rw [hscan] at hres
    simp at hres
  | some r =>
    obtain ⟨addr, a3⟩ := r
    rw [hscan] at hres
    simp only [Prod.mk.injEq] at hres
    obtain ⟨hp, _⟩ := hres
    obtain ⟨l1_index, hsc⟩ := scanL1_some_shape a1 (scan_start_word a)
      (scan_start_off a) (l1_words a.block_size) 0 (addr, a3) hscan
    obtain ⟨j, _, hj64, hjlt, hjnz, hbnb, hr⟩ :=
      scanL2_some_shape a1 l1_index l2_per_l1 0 (addr, a3) hsc
    set l2_idx := l1_index * l2_per_l1 + j with hl2idx
    set bi := l2_idx * 64 + ctz64 (a1.l2 l2_idx) with hbi
    have hctz : ctz64 (a1.l2 l2_idx) < 64 := ctz64_lt_64 hjnz (hwf.2 l2_idx)
    refine ⟨bi, hbnb, ?_, ?_⟩
    · have hdiv : bi / 64 = l2_idx := by omega
      have hmod : bi % 64 = ctz64 (a1.l2 l2_idx) := by omega
      rw [hdiv, hmod]
      exact ctz64_testBit hjnz (hwf.2 l2_idx)
    · have e1 : a1.base_addr = a.base_addr := rfl
      have e2 : a1.block_size = a.block_size := rfl
      have haddr : addr = a.base_addr + bi * a.block_size := by
        have h1 := congrArg Prod.fst hr
        simp only [] at h1
        rw [h1, e1, e2, shiftLeft_block_shift hbs bi]
      have hpaddr : addr = p := Option.some_inj.mp hp
      rw [← hpaddr]
      exact haddr

/-! ### Preservation of the exact-L1 invariant (claim C9) -/

theorem region_has_free_iff (a : Arena) (b : Nat) :
    region_has_free a b = true ↔
      ∃ j, j < l2_per_l1 ∧ b * l2_per_l1 + j < l2_words a.block_size ∧
        a.l2 (b * l2_per_l1 + j) ≠ 0 := by
  simp only [region_has_free, List.any_eq_true, List.mem_range,
    Bool.and_eq_true, decide_eq_true_eq]

/-- Lemma: `update_l1_for_region` restores the exact-summary property at its bit
and preserves it elsewhere. -/
theorem exact_after_update_l1 (a1 : Arena) (b0 : Nat)
    (hwf : WFbitmaps a1)
    (hrest : ∀ b, b < l1_words a1.block_size * 64 → b ≠ b0 →
      ((a1.l1 (b / 64)).testBit (b % 64) = true ↔
        ∃ j, j < l2_per_l1 ∧ b * l2_per_l1 + j < l2_words a1.block_size ∧
          a1.l2 (b * l2_per_l1 + j) ≠ 0)) :
    WFbitmaps (update_l1_for_region a1 b0) ∧ ExactL1 (update_l1_for_region a1 b0) := by
  have hoff : b0 % 64 < 64 := Nat.mod_lt b0 (by omega)
  have hb0eq : b0 / 64 * 64 + b0 % 64 = b0 := by omega
  rw [update_l1_for_region]
  by_cases hfree : region_has_free a1 b0 = true
  · rw [if_pos hfree]
    constructor
    · refine ⟨?_, hwf.2⟩
      intro i
      dsimp only []
      by_cases hi : i = b0 / 64
      · rw [hi, upd_self]
        exact or_shiftLeft_lt (hwf.1 _) hoff
      · rw [upd_ne _ _ _ hi]
        exact hwf.1 i
    · intro b hb
      dsimp only []
      rw [testBit_upd_or a1.l1 (b0 / 64) (b0 % 64) b hoff, hb0eq]
      by_cases hbb : b = b0
      · subst hbb
        simp only [or_true, true_iff]
        exact (region_has_free_iff a1 b).mp hfree
      · simp only [hbb, or_false]
        exact hrest b hb hbb
  · rw [if_neg hfree]
    constructor
    · refine ⟨?_, hwf.2⟩
      intro i
      dsimp only []
      by_cases hi : i = b0 / 64
      · rw [hi, upd_self]
        exact Nat.and_lt_two_pow _ (complement64_lt (shiftLeft_pow_lt hoff))
      · rw [upd_ne _ _ _ hi]
        exact hwf.1 i
    · intro b hb
      dsimp only []
      rw [testBit_upd_and_not a1.l1 (b0 / 64) (b0 % 64) b hoff, hb0eq]
      by_cases hbb : b = b0
      · subst hbb
        simp only [ne_eq, not_true_eq_false, and_false, false_iff]
        intro hex
        exact hfree ((region_has_free_iff a1 b).mpr hex)
      · simp only [ne_eq, hbb, not_false_eq_true, and_true]
        exact hrest b hb hbb

/-- The `clear_free_bit` write of a successful bitmap allocation preserves
well-formedness and the exact-L1 property. -/
theorem exact_after_clear (a : Arena) (l1_index j : Nat)
    (hj : j < l2_per_l1)
    (hidx : l1_index * l2_per_l1 + j < l2_words a.block_size)
    (hwf : WFbitmaps a) (hex : ExactL1 a)
    (hnz : a.l2 (l1_index * l2_per_l1 + j) ≠ 0) :
    WFbitmaps (clear_free_bit a l1_index (l1_index * l2_per_l1 + j)) ∧
    ExactL1 (clear_free_bit a l1_index (l1_index * l2_per_l1 + j)) := by
  have hbit : ctz64 (a.l2 (l1_index * l2_per_l1 + j)) < 64 :=
    ctz64_lt_64 hnz (hwf.2 _)
  rw [clear_free_bit]
  set l2_idx := l1_index * l2_per_l1 + j with hl2idx
  set w2 := a.l2 l2_idx &&& complement64 (1 <<< ctz64 (a.l2 l2_idx)) with hw2
  set a1 : Arena := { a with l2 := upd a.l2 l2_idx w2 } with ha1
  have hwf1 : WFbitmaps a1 := by
    constructor
    · exact hwf.1
    · intro i
      show (upd a.l2 l2_idx w2) i < two64
      by_cases hi : i = l2_idx
      · rw [hi, upd_self, hw2]
        exact Nat.and_lt_two_pow _ (complement64_lt (shiftLeft_pow_lt hbit))
      · rw [upd_ne _ _ _ hi]
        exact hwf.2 i
  have hval : ∀ b, b ≠ l1_index → ∀ j', j' < l2_per_l1 →
      a1.l2 (b * l2_per_l1 + j') = a.l2 (b * l2_per_l1 + j') := by
    intro b hbne j' hj'
    have hne : b * l2_per_l1 + j' ≠ l2_idx := by
      rw [hl2idx]
      simp only [l2_per_l1] at hj hj' ⊢
      intro hcontra
      apply hbne
      omega
    show (upd a.l2 l2_idx w2) (b * l2_per_l1 + j') = a.l2 (b * l2_per_l1 + j')
    exact upd_ne _ _ _ hne
  have hrest : ∀ b, b < l1_words a1.block_size * 64 → b ≠ l1_index →
      ((a1.l1 (b / 64)).testBit (b % 64) = true ↔
        ∃ j', j' < l2_per_l1 ∧ b * l2_per_l1 + j' < l2_words a1.block_size ∧
          a1.l2 (b * l2_per_l1 + j') ≠ 0) := by
    intro b hb hbne
    have hL : a1.l1 = a.l1 := rfl
    rw [hL]
    constructor
    · intro h
      obtain ⟨j', h1, h2, h3⟩ := (hex b hb).mp h
      exact ⟨j', h1, h2, by rw [hval b hbne j' h1]; exact h3⟩
    · rintro ⟨j', h1, h2, h3⟩
      rw [hval b hbne j' h1] at h3
      exact (hex b hb).mpr ⟨j', h1, h2, h3⟩
  by_cases hz : w2 = 0
  · rw [if_pos hz]
    have h := exact_after_update_l1 a1 l1_index hwf1 hrest
    exact ⟨h.1, h.2⟩
  · rw [if_neg hz]
    refine ⟨hwf1, ?_⟩
    intro b hb
    by_cases hbne : b = l1_index
    · subst hbne
      have hL : a1.l1 = a.l1 := rfl
      rw [hL]
      have hLHS : (a.l1 (b / 64)).testBit (b % 64) = true :=
        (hex b hb).mpr ⟨j, hj, hidx, hnz⟩
      rw [hLHS]
      simp only [true_iff]
      refine ⟨j, hj, hidx, ?_⟩
      show (upd a.l2 l2_idx w2) (b * l2_per_l1 + j) ≠ 0
      rw [← hl2idx, upd_self]
      exact hz
    · exact hrest b hb hbne

/-- Lemma: `mark_free` (the body of `arena::deallocate`) preserves well-formedness
and the exact-L1 property, for any block whose L2 word is in range. -/
theorem exact_after_mark_free (a : Arena) (bi : Nat)
    (hidx : bi / 64 < l2_words a.block_size)
    (hwf : WFbitmaps a) (hex : ExactL1 a) :
    WFbitmaps (mark_free a bi) ∧ ExactL1 (mark_free a bi) := by
  rw [mark_free]
  dsimp only []
  set l1_bit := bi / 64 / l2_per_l1 with hl1bit
  have hbit64 : bi % 64 < 64 := Nat.mod_lt bi (by omega)
  have hloff64 : l1_bit % 64 < 64 := Nat.mod_lt l1_bit (by omega)
  have hl1eq : l1_bit / 64 * 64 + l1_bit % 64 = l1_bit := by omega
  constructor
  · constructor
    · intro i
      show (upd a.l1 (l1_bit / 64) (a.l1 (l1_bit / 64) ||| 1 <<< (l1_bit % 64))) i < two64
      by_cases hi : i = l1_bit / 64
      · rw [hi, upd_self]
        exact or_shiftLeft_lt (hwf.1 _) hloff64
      · rw [upd_ne _ _ _ hi]
        exact hwf.1 i
    · intro i
      show (upd a.l2 (bi / 64) (a.l2 (bi / 64) ||| 1 <<< (bi % 64))) i < two64
      by_cases hi : i = bi / 64
      · rw [hi, upd_self]
        exact or_shiftLeft_lt (hwf.2 _) hbit64
      · rw [upd_ne _ _ _ hi]
        exact hwf.2 i
  · intro b hb
    show ((upd a.l1 (l1_bit / 64) (a.l1 (l1_bit / 64) ||| 1 <<< (l1_bit % 64)))
        (b / 64)).testBit (b % 64) = true ↔
      ∃ j', j' < l2_per_l1 ∧ b * l2_per_l1 + j' < l2_words a.block_size ∧
        (upd a.l2 (bi / 64) (a.l2 (bi / 64) ||| 1 <<< (bi % 64))) (b * l2_per_l1 + j') ≠ 0
    rw [testBit_upd_or a.l1 (l1_bit / 64) (l1_bit % 64) b hloff64, hl1eq]
    by_cases hbb : b = l1_bit
    · rw [hbb]
      simp only [or_true, true_iff]
      refine ⟨bi / 64 - l1_bit * l2_per_l1, ?_, ?_, ?_⟩
      · simp only [l2_per_l1] at hl1bit ⊢
        omega
      · have hrecover : l1_bit * l2_per_l1 + (bi / 64 - l1_bit * l2_per_l1) = bi / 64 := by
          simp only [l2_per_l1] at hl1bit ⊢
          omega
        rw [hrecover]
        exact hidx
      · have hrecover : l1_bit * l2_per_l1 + (bi / 64 - l1_bit * l2_per_l1) = bi / 64 := by
          simp only [l2_per_l1] at hl1bit ⊢
          omega
        rw [hrecover, upd_self]
        intro h0
        have htb : (a.l2 (bi / 64) ||| 1 <<< (bi % 64)).testBit (bi % 64) = true := by
          rw [Nat.testBit_lor, one_shiftLeft_eq, Nat.testBit_two_pow]
          simp
        rw [h0] at htb
        simp at htb
    · simp only [hbb, or_false]
      have hval : ∀ j', j' < l2_per_l1 →
          (upd a.l2 (bi / 64) (a.l2 (bi / 64) ||| 1 <<< (bi % 64))) (b * l2_per_l1 + j') =
            a.l2 (b * l2_per_l1 + j') := by
        intro j' hj'
        have hne : b * l2_per_l1 + j' ≠ bi / 64 := by
          simp only [l2_per_l1] at hl1bit hj' ⊢
          intro hcontra
          apply hbb
          rw [hl1bit]
          omega
        exact upd_ne _ _ _ hne
      constructor
      · intro h
        obtain ⟨j', h1, h2, h3⟩ := (hex b hb).mp h
        exact ⟨j', h1, h2, by rw [hval j' h1]; exact h3⟩
      · rintro ⟨j', h1, h2, h3⟩
        rw [hval j' h1] at h3
        exact (hex b hb).mpr ⟨j', h1, h2, h3⟩

/-! ### Reachable arena states -/

/-- A pointer it is legal to hand to `arena::deallocate`: the start address
of a block inside the usable region that lies below the bump cursor (so the
block has been handed out at some point) and is not currently marked free. -/
def ValidFree (a : Arena) (p : Nat) : Prop :=
  ∃ i, i * a.block_size < usable_capacity a.block_size ∧
    p = a.base_addr + i * a.block_size ∧
    (i + 1) * a.block_size ≤ a.bump_offset ∧
    (a.l2 (i / 64)).testBit (i % 64) = false

/-- Single-threaded (local-policy) reachability: a fresh arena for one of the
20 size classes, followed by any sequence of `allocate()` calls and
`deallocate()` calls on legally freeable block addresses. -/
inductive ArenaReach : Arena → Prop
  | fresh (base bs : Nat) (hbs : GoodBS bs) (hfit : base + arena_size ≤ two64) :
      ArenaReach (fresh_arena base bs)
  | alloc {a : Arena} : ArenaReach a → ArenaReach (arena_allocate a).2
  | dealloc {a : Arena} {p : Nat} : ArenaReach a → ValidFree a p →
      ArenaReach (arena_deallocate a p)

/-- The inductive invariant of a local arena: a valid size class,
well-formed 64-bit bitmap words, and an exact L1 summary. -/
def ArenaInv (a : Arena) : Prop :=
  GoodBS a.block_size ∧ WFbitmaps a ∧ ExactL1 a

theorem clear_free_bit_block_size (a : Arena) (x y : Nat) :
    (clear_free_bit a x y).block_size = a.block_size := by
  rw [clear_free_bit]
  split
  · rw [update_l1_for_region]
    split <;> rfl
  · rfl

theorem inv_fresh (base bs : Nat) (hbs : GoodBS bs) :
    ArenaInv (fresh_arena base bs) := by
  refine ⟨hbs, ⟨fun i => ?_, fun i => ?_⟩, fun b hb => ?_⟩
  · show (0 : Nat) < two64
    rw [two64]
    positivity
  · show (0 : Nat) < two64
    rw [two64]
    positivity
  · constructor
    · intro h
      exfalso
      have : (0 : Nat).testBit (b % 64) = false := Nat.zero_testBit _
      rw [show (fresh_arena base bs).l1 (b / 64) = 0 from rfl] at h
      rw [this] at h
      exact Bool.noConfusion h
    · rintro ⟨j, _, _, hnz⟩
      exact absurd rfl hnz

theorem inv_allocate (a : Arena) (h : ArenaInv a) : ArenaInv (arena_allocate a).2 := by
  obtain ⟨hbs, hwf, hex⟩ := h
  rw [arena_allocate]
  by_cases hb : a.bump_offset < usable_capacity a.block_size
  · rw [if_pos hb]
    exact ⟨hbs, hwf, hex⟩
  · rw [if_neg hb, try_bitmap_allocate]
    cases hscan : scanL1 { a with alloc_count := a.alloc_count + 1 }
        (scan_start_word a) (scan_start_off a) 0 (l1_words a.block_size) with
    | none =>
      exact ⟨hbs, hwf, hex⟩
    | some r =>
      obtain ⟨addr, a2⟩ := r
      simp only []
      obtain ⟨l1_index, hsc⟩ := scanL1_some_shape _ _ _ _ _ _ hscan
      obtain ⟨j, hj0, hj64, hjlt, hjnz, hbnb, hr⟩ := scanL2_some_shape _ l1_index _ _ _ hsc
      have h2 : a2 = clear_free_bit { a with alloc_count := a.alloc_count + 1 }
          l1_index (l1_index * l2_per_l1 + j) := by
        have := congrArg Prod.snd hr
        simpa using this
      rw [h2]
      have hclear := exact_after_clear { a with alloc_count := a.alloc_count + 1 }
        l1_index j (by omega) hjlt hwf hex hjnz
      refine ⟨?_, hclear.1, hclear.2⟩
      rw [clear_free_bit_block_size]
      exact hbs

theorem inv_deallocate (a : Arena) (p : Nat) (h : ArenaInv a)
    (hv : ValidFree a p) : ArenaInv (arena_deallocate a p) := by
  obtain ⟨hbs, hwf, hex⟩ := h
  obtain ⟨i, hi_usable, hp, hbump, hbit⟩ := hv
  have harena : usable_capacity a.block_size ≤ arena_size := Nat.sub_le _ _
  have harena2 : arena_size < two64 := by rw [arena_size, two64]; norm_num
  have hlt : i * a.block_size < two64 := by omega
  have hfree : pointer_to_block_index a p = i := by
    rw [hp, pointer_to_block_index]
    have hsub : ptr_sub (a.base_addr + i * a.block_size) a.base_addr =
        i * a.block_size := by
      rw [ptr_sub]
      have he : two64 + (a.base_addr + i * a.block_size) - a.base_addr =
          two64 + i * a.block_size := by omega
      rw [he, Nat.add_mod_left, Nat.mod_eq_of_lt hlt]
    rw [hsub]
    exact shiftRight_block_shift hbs i
  rw [arena_deallocate, hfree]
  have hdvd : a.block_size ∣ arena_size := by
    obtain ⟨k, h3, h22, hk⟩ := hbs
    rw [hk, arena_size, show (64 * 1024 * 1024 : Nat) = 2 ^ 26 by norm_num]
    exact pow_dvd_pow 2 (by omega)
  have hth : i < theoretical_blocks a.block_size := by
    have hmul : theoretical_blocks a.block_size * a.block_size = arena_size :=
      Nat.div_mul_cancel hdvd
    have hilt : i * a.block_size < theoretical_blocks a.block_size * a.block_size := by
      omega
    exact Nat.lt_of_mul_lt_mul_right hilt
  have hidx : i / 64 < l2_words a.block_size := by
    have := theoretical_le_l2_words_mul a.block_size
    omega
  have h := exact_after_mark_free a i hidx hwf hex
  exact ⟨hbs, h.1, h.2⟩

theorem reach_arena_inv {a : Arena} (h : ArenaReach a) : ArenaInv a := by
  induction h with
  | fresh base bs hbs hfit => exact inv_fresh base bs hbs
  | alloc _ ih => exact inv_allocate _ ih
  | dealloc _ hv ih => exact inv_deallocate _ _ ih hv

/-- Claim C9: under the local policy, every state reached from a fresh arena
by any sequence of `allocate()` and `deallocate()` calls has an exact L1
summary: L1 bit `b` is set iff some L2 word of the region
`[b*64, min(b*64+64, l2_words))` is nonzero. -/
theorem C9_local_l1_summary_exact (a : Arena) (h : ArenaReach a) : ExactL1 a :=
  (reach_arena_inv h).2.2

/-- Check of C9 on the concrete reachable state obtained by one bump
allocation followed by one deallocation of that block in a fresh 4 MiB-block
arena at base 0 (the deallocation sets L2 bit 0 and L1 bit 0). -/
theorem C9_local_l1_summary_exact_witness :
    ExactL1 (arena_deallocate (arena_allocate_state (fresh_arena 0 (4 * 1024 * 1024))) 0) := by
  apply C9_local_l1_summary_exact
  apply ArenaReach.dealloc
  · exact ArenaReach.alloc (ArenaReach.fresh 0 (4 * 1024 * 1024)
      ⟨22, by omega, by omega, by norm_num⟩ (by rw [arena_size, two64]; norm_num))
  · exact ⟨0, by decide, by decide, by decide, by decide⟩

/-! ### Claim C1: what the bitmap fallback actually finds -/

/-- Claim C1 (amended): on a local arena with well-formed bitmaps, an exact
L1 summary, and all set L2 bits in range, `allocate()` (1) serves any request
from the bump region while it is not exhausted, and, once it is exhausted,
(2) returns a free block whenever some set L1 bit is visible to the
round-robin scan (the scan examines every L1 bit except those strictly below
the start offset inside the starting word), and (3) any pointer it returns
on the bitmap path is the address of an in-range block whose L2 bit was
set.  Set L1 bits below the start offset in the starting word can be missed,
so without the visibility condition `allocate()` may return `nullptr` even
though a free block exists. -/
theorem C1_amended_allocate_finds_visible_blocks (a : Arena)
    (hbs : GoodBS a.block_size) (hwf : WFbitmaps a) (hex : ExactL1 a)
    (hval : ValidBits a) :
    (a.bump_offset < usable_capacity a.block_size →
      (arena_allocate a).1 = some (a.base_addr + a.bump_offset)) ∧
    (usable_capacity a.block_size ≤ a.bump_offset →
      (∃ b, VisibleL1 a b ∧ (a.l1 (b / 64)).testBit (b % 64) = true) →
      ∃ bi, bi < num_blocks a.block_size ∧
        (a.l2 (bi / 64)).testBit (bi % 64) = true ∧
        (arena_allocate a).1 = some (a.base_addr + bi * a.block_size)) ∧
    (usable_capacity a.block_size ≤ a.bump_offset →
      ∀ p a2, arena_allocate a = (some p, a2) →
      ∃ bi, bi < num_blocks a.block_size ∧
        (a.l2 (bi / 64)).testBit (bi % 64) = true ∧
        p = a.base_addr + bi * a.block_size) := by
  refine ⟨?_, ?_, ?_⟩
  · intro hb
    rw [arena_allocate, if_pos hb]
  · intro hbump hvis
    rw [arena_allocate, if_neg (by omega)]
    exact try_bitmap_finds_block a hbs hwf hex hval hvis
  · intro hbump p a2 hres
    rw [arena_allocate, if_neg (by omega)] at hres
    exact try_bitmap_sound a hbs hwf p a2 hres

/-- A concrete 4 MiB-block arena at base 0 with exhausted bump region and
block 0 free (L2 bit 0 and L1 bit 0 set), used to check the amended C1. -/
def c1visA : Arena :=
  { base_addr := 0, block_size := 4 * 1024 * 1024,
    bump_offset := usable_capacity (4 * 1024 * 1024), alloc_count := 0,
    l1 := fun i => if i = 0 then 1 else 0,
    l2 := fun i => if i = 0 then 1 else 0 }

theorem c1visA_exact : ExactL1 c1visA := by
  intro b hb
  have hlw : l1_words c1visA.block_size = 1 := by decide
  rw [hlw] at hb
  have hb64 : b < 64 := by omega
  have hdiv : b / 64 = 0 := by omega
  have hl1 : c1visA.l1 0 = 1 := rfl
  rw [hdiv, hl1]
  by_cases hb0 : b = 0
  · subst hb0
    constructor
    · intro _
      exact ⟨0, by decide, by decide, by decide⟩
    · intro _
      decide
  · have hmod : b % 64 = b := Nat.mod_eq_of_lt hb64
    rw [hmod]
    have hfalse : (1 : Nat).testBit b = false := by
      apply Nat.testBit_eq_false_of_lt
      have h2 : (2 : Nat) ^ 1 ≤ 2 ^ b := Nat.pow_le_pow_right (by omega) (by omega)
      omega
    rw [hfalse]
    constructor
    · intro h
      exact Bool.noConfusion h
    · rintro ⟨j, hj, hlt, _⟩
      exfalso
      have hl2w : l2_words c1visA.block_size = 1 := by decide
      rw [hl2w] at hlt
      have h64 : 64 ≤ b * l2_per_l1 := by
        simp only [l2_per_l1]
        omega
      omega

theorem c1visA_valid : ValidBits c1visA := by
  intro bi hbi hset
  have hl2w : l2_words c1visA.block_size = 1 := by decide
  rw [hl2w] at hbi
  have hbi64 : bi < 64 := by omega
  have hdiv : bi / 64 = 0 := by omega
  have hl2 : c1visA.l2 0 = 1 := rfl
  rw [hdiv, hl2] at hset
  have hmod : bi % 64 = bi := Nat.mod_eq_of_lt hbi64
  rw [hmod] at hset
  by_cases hbi0 : bi = 0
  · subst hbi0
    decide
  · exfalso
    have hfalse : (1 : Nat).testBit bi = false := by
      apply Nat.testBit_eq_false_of_lt
      have h2 : (2 : Nat) ^ 1 ≤ 2 ^ bi := Nat.pow_le_pow_right (by omega) (by omega)
      omega
    rw [hfalse] at hset
    exact Bool.noConfusion hset

/-- Check of the amended C1 on `c1visA`: the bitmap scan, started at L1 bit
0, returns the free block 0. -/
theorem C1_amended_allocate_finds_visible_blocks_witness :
    ∃ bi, bi < num_blocks c1visA.block_size ∧
      (c1visA.l2 (bi / 64)).testBit (bi % 64) = true ∧
      (arena_allocate c1visA).1 = some (c1visA.base_addr + bi * c1visA.block_size) := by
  have hbs : GoodBS c1visA.block_size := ⟨22, by omega, by omega, by norm_num [c1visA]⟩
  have hwf : WFbitmaps c1visA := by
    constructor <;> intro i <;> simp only [c1visA] <;> split <;>
      first
        | exact Nat.one_lt_two_pow (by omega)
        | (rw [two64]; positivity)
  exact (C1_amended_allocate_finds_visible_blocks c1visA hbs hwf c1visA_exact
      c1visA_valid).2.1
    (by decide) ⟨0, ⟨by decide, by decide⟩, by decide⟩

/-- Filling the bump region: after `k` allocations from a fresh arena the
bump offset is `k * block_size` and the bitmaps are still all zero. -/
theorem reach_bump_fill (base bs : Nat) (hbs : GoodBS bs)
    (hfit : base + arena_size ≤ two64) :
    ∀ k, k * bs < usable_capacity bs + bs →
      ArenaReach { base_addr := base, block_size := bs, bump_offset := k * bs,
                   alloc_count := 0, l1 := fun _ => 0, l2 := fun _ => 0 } := by
  intro k
  induction k with
  | zero =>
    intro _
    have h0 : ({ base_addr := base, block_size := bs, bump_offset := 0 * bs,
                 alloc_count := 0, l1 := fun _ => 0, l2 := fun _ => 0 } : Arena) =
        fresh_arena base bs := by
      rw [fresh_arena]
      norm_num
    rw [h0]
    exact ArenaReach.fresh base bs hbs hfit
  | succ n ih =>
    intro hk
    rw [Nat.succ_mul] at hk
    have hlt : n * bs < usable_capacity bs := by omega
    have hstep : (arena_allocate { base_addr := base, block_size := bs, bump_offset := n * bs, alloc_count := 0, l1 := fun _ => 0, l2 := fun _ => 0 }).2 = { base_addr := base, block_size := bs, bump_offset := (n + 1) * bs, alloc_count := 0, l1 := fun _ => 0, l2 := fun _ => 0 } := by
      rw [arena_allocate]
      rw [if_pos hlt]
      have : n * bs + bs = (n + 1) * bs := by ring
      rw [this]
    have hreach := ArenaReach.alloc (ih (by omega))
    rw [hstep] at hreach
    exact hreach

/-- The bump-exhausted 8 KiB-block arena at base 0 reached after 8192
allocations (`usable_capacity 8192 = 67107832`, so the bump path runs until
`bump_offset = 8192 * 8192 = 67108864`). -/
def c1fill : Arena :=
  { base_addr := 0, block_size := 8192, bump_offset := 67108864,
    alloc_count := 0, l1 := fun _ => 0, l2 := fun _ => 0 }

theorem reach_c1fill : ArenaReach c1fill := by
  have h := reach_bump_fill 0 8192 ⟨13, by omega, by omega, by norm_num⟩
    (by rw [arena_size, two64]; norm_num) 8192 (by decide)
  have he : ({ base_addr := 0, block_size := 8192, bump_offset := 8192 * 8192,
               alloc_count := 0, l1 := fun _ => 0, l2 := fun _ => 0 } : Arena) = c1fill := by
    rw [c1fill]
  rw [he] at h
  exact h

/-- The reachable counterexample state for claim C1: from `c1fill`,
deallocate blocks 0 and 1, then allocate once (the scan starts at L1 bit 0,
takes back block 0, and advances the round-robin counter to 1).  The
resulting state still has block 1 free (L2 word 0 = 2, L1 word 0 = 1), its
bump region exhausted, and `alloc_count = 1`. -/
def c1cex : Arena :=
  (arena_allocate (arena_deallocate (arena_deallocate c1fill 0) 8192)).2

/-- Claim C1 fails on the code: `c1cex` is reachable, a free block exists
(block 1, L2 bit 1 set, and `is_full()` is false), yet `allocate()` returns
`nullptr`: the scan starts at L1 bit `1 % l1_bits = 1`, masks away bit 0 of
the starting (and only) L1 word with `~0 << 1`, finds the word zero, and
never revisits it. -/
theorem C1_counterexample_allocate_misses_free_block :
    ArenaReach c1cex ∧ FreeBlockExists c1cex ∧ arena_is_full c1cex = false ∧
    (arena_allocate c1cex).1 = none := by
  refine ⟨?_, ⟨1, by decide, by decide⟩, by decide, by decide⟩
  exact ArenaReach.alloc (ArenaReach.dealloc
    (ArenaReach.dealloc reach_c1fill ⟨0, by decide, by decide, by decide, by decide⟩)
    ⟨1, by decide, by decide, by decide, by decide⟩)

/-! ### `arena_pool` (`allocator.hpp` lines 486-689), local policy

OS virtual-memory reservation outcomes are passed in as an
`Option Nat` (`some base`: the reservation succeeded and returned a region
at address `base`; `none`: it failed). -/

/-- Embeds `arena_pool::max_arenas`. -/
def max_arenas : Nat := 16

/-- The mutable state of one local-policy `arena_pool`: the 16 arena slots
(slots at indices `≥ num_arenas` are unpopulated and never read), the
populated count, the round-robin hint, and the pool's block size. -/
structure Pool where
  arenas : Nat → Arena
  num_arenas : Nat
  current_arena : Nat
  block_size : Nat

/-- One `arenas[i]->allocate()` attempt with the arena state written back to
its slot. -/
def try_arena (p : Pool) (i : Nat) : Option Nat × Pool :=
  let r := arena_allocate (p.arenas i)
  (r.1, { p with arenas := upd p.arenas i r.2 })

/-- The scan loop of `arena_pool::allocate` (lines 583-602): try every
populated arena except `current_idx` in index order; the first success
updates the `current_arena` hint. -/
def pool_scan (current_idx : Nat) : Nat → Nat → Pool → Option Nat × Pool
  | _, 0, p => (none, p)
  | i, fuel + 1, p =>
    if i = current_idx then pool_scan current_idx (i + 1) fuel p
    else
      match try_arena p i with
      | (some ptr, p1) => (some ptr, { p1 with current_arena := i })
      | (none, p1) => pool_scan current_idx (i + 1) fuel p1

/-- The growth step of the local-policy `arena_pool::allocate` (lines
639-663): cap check, OS reservation, in-place construction of the new
arena, publication, and service of the original request from it. -/
def pool_grow_local (p : Pool) (num : Nat) (os : Option Nat) : Option Nat × Pool :=
  if max_arenas ≤ num then (none, p)
  else
    match os with
    | none => (none, p)
    | some base =>
      let p1 := { p with arenas := upd p.arenas num (fresh_arena base p.block_size), current_arena := num, num_arenas := num + 1 }
      let r := arena_allocate (p1.arenas p1.current_arena)
      (r.1, { p1 with arenas := upd p1.arenas p1.current_arena r.2 })

/-- The growth step of the shared-policy `arena_pool::allocate` (lines
604-637) in its single-threaded (sequential) rendering: the compare-exchange
reserves the slot by incrementing `num_arenas` first; a failed OS
reservation rolls the count back with `fetch_sub` and returns `nullptr`. -/
def pool_grow_shared (p : Pool) (os : Option Nat) : Option Nat × Pool :=
  if max_arenas ≤ p.num_arenas then (none, p)
  else
    let p1 := { p with num_arenas := p.num_arenas + 1 }
    match os with
    | none => (none, { p1 with num_arenas := p1.num_arenas - 1 })
    | some base =>
      let p2 := { p1 with arenas := upd p1.arenas p.num_arenas (fresh_arena base p.block_size), current_arena := p.num_arenas }
      let r := arena_allocate (p2.arenas p.num_arenas)
      (r.1, { p2 with arenas := upd p2.arenas p.num_arenas r.2 })

/-- Embeds `arena_pool::allocate` (lines 556-664), local policy: try the arena at
`current_arena`, then scan all other populated arenas, then grow. -/
def pool_allocate (p : Pool) (os : Option Nat) : Option Nat × Pool :=
  let current_idx := p.current_arena
  let num := p.num_arenas
  let step1 : Option Nat × Pool :=
    if current_idx < num then try_arena p current_idx else (none, p)
  match step1 with
  | (some ptr, p1) => (some ptr, p1)
  | (none, p1) =>
    match pool_scan current_idx 0 num p1 with
    | (some ptr, p2) => (some ptr, p2)
    | (none, p2) => pool_grow_local p2 num os

/-- The linear owner scan of `arena_pool::deallocate` (lines 666-688). -/
def pool_deallocate_scan (ptr : Nat) : Nat → Nat → Pool → Pool
  | _, 0, p => p
  | i, fuel + 1, p =>
    if arena_owns (p.arenas i) ptr then
      { p with arenas := upd p.arenas i (arena_deallocate (p.arenas i) ptr) }
    else pool_deallocate_scan ptr (i + 1) fuel p

/-- Embeds `arena_pool::deallocate` (lines 666-688), local policy. -/
def pool_deallocate (p : Pool) (ptr : Nat) : Pool :=
  pool_deallocate_scan ptr 0 p.num_arenas p

/-! ### `allocator` front end (lines 691-857) -/

/-- What `allocator::allocate` hands back on success: either a dedicated OS
mapping (oversize path) or a pool block. -/
inductive AllocResult where
  | osPtr (bytes addr : Nat)
  | poolPtr (index addr : Nat)
deriving DecidableEq

/-- The per-policy pool storage resolved by `allocator::get_pools`: one pool
per size class, indexed by `size_to_index`. -/
structure AllocatorState where
  pools : Nat → Pool

/-- Computes `bytes = (bytes + alignof(T) - 1) & ~(alignof(T) - 1)` in 64-bit
`std::size_t` arithmetic. -/
def align_round (bytes align : Nat) : Nat :=
  ((bytes + align - 1) % two64) &&& complement64 (align - 1)

/-- Embeds `allocator::allocate` (lines 784-818): zero-count sentinel, size-class
rounding, oversize OS fallback, pool delegation, and the out-of-memory
failure (`std::bad_alloc`, modelled by `Except.error`) when the pool returns
`nullptr`.  `os` supplies the OS reservation outcome used by either the
oversize path or pool growth. -/
def allocator_allocate (A : AllocatorState) (n sizeofT alignofT : Nat)
    (os : Option Nat) : Except Unit (Option AllocResult) × AllocatorState :=
  if n = 0 then (Except.ok none, A)
  else
    let bytes := align_round (n * sizeofT) alignofT
    let sc := round_to_size_class bytes
    if sc = 0 ∨ max_size < sc then
      match os with
      | none => (Except.error (), A)
      | some addr => (Except.ok (some (AllocResult.osPtr bytes addr)), A)
    else
      let index := size_to_index sc
      let r := pool_allocate (A.pools index) os
      let A1 := { A with pools := upd A.pools index r.2 }
      match r.1 with
      | none => (Except.error (), A1)
      | some addr => (Except.ok (some (AllocResult.poolPtr index addr)), A1)

/-- Embeds `allocator::deallocate` (lines 820-844): null/zero no-op, size-class
mirror computation, OS release for oversize blocks (no modelled pool state
change), pool delegation otherwise. -/
def allocator_deallocate (A : AllocatorState) (ptr : Option Nat)
    (n sizeofT alignofT : Nat) : AllocatorState :=
  match ptr, n with
  | none, _ => A
  | some _, 0 => A
  | some pv, m + 1 =>
    let bytes := align_round ((m + 1) * sizeofT) alignofT
    let sc := round_to_size_class bytes
    if sc = 0 ∨ max_size < sc then A
    else
      let index := size_to_index sc
      { A with pools := upd A.pools index (pool_deallocate (A.pools index) pv) }

/-! ### Claims C5, C6: pool exhaustion and failed growth -/

/-- A completely full local arena in the sense of `arena::is_full`: bump
region exhausted and every L1 word zero. -/
def FullArena (a : Arena) : Prop :=
  usable_capacity a.block_size ≤ a.bump_offset ∧
  ∀ w, w < l1_words a.block_size → a.l1 w = 0

theorem scanL1_all_zero (a : Arena) (wi off : Nat)
    (hz : ∀ w, w < l1_words a.block_size → a.l1 w = 0) :
    ∀ fuel i, fuel ≤ l1_words a.block_size → scanL1 a wi off i fuel = none := by
  intro fuel
  induction fuel with
  | zero => intro i _; rfl
  | succ n ih =>
    intro i hfuel
    rw [scanL1]
    have hlw : 0 < l1_words a.block_size := by omega
    have hidx : (wi + i) % l1_words a.block_size < l1_words a.block_size :=
      Nat.mod_lt _ hlw
    have hw0 : a.l1 ((wi + i) % l1_words a.block_size) = 0 := hz _ hidx
    rw [hw0]
    have hmask : (if i = 0 ∧ off ≠ 0 then 0 &&& maskGe off else 0) = 0 := by
      split
      · exact Nat.zero_and _
      · rfl
    rw [hmask]
    simp only [ne_eq, not_true_eq_false, if_false, not_not]
    exact ih (i + 1) (by omega)

/-- A completely full arena's `allocate()` returns `nullptr`, its only state
change being the round-robin counter increment. -/
theorem full_arena_allocate_none (a : Arena) (hfull : FullArena a) :
    arena_allocate a = (none, { a with alloc_count := a.alloc_count + 1 }) := by
  have hbump : ¬ (a.bump_offset < usable_capacity a.block_size) := by
    have := hfull.1
    omega
  rw [arena_allocate, if_neg hbump, try_bitmap_allocate]
  have hz : ∀ w, w < l1_words ({ a with alloc_count := a.alloc_count + 1 } : Arena).block_size →
      ({ a with alloc_count := a.alloc_count + 1 } : Arena).l1 w = 0 := hfull.2
  rw [scanL1_all_zero _ _ _ hz (l1_words a.block_size) 0 (le_refl _)]

theorem full_arena_count_bump (a : Arena) (h : FullArena a) :
    FullArena { a with alloc_count := a.alloc_count + 1 } := h

theorem pool_scan_all_full (c : Nat) :
    ∀ fuel i p, i + fuel ≤ p.num_arenas →
      (∀ j, j < p.num_arenas → FullArena (p.arenas j)) →
      ∃ p2, pool_scan c i fuel p = (none, p2) ∧
        p2.num_arenas = p.num_arenas ∧ p2.current_arena = p.current_arena ∧
        p2.block_size = p.block_size ∧
        (∀ j, j < p2.num_arenas → FullArena (p2.arenas j)) := by
  intro fuel
  induction fuel with
  | zero =>
    intro i p _ hfull
    exact ⟨p, rfl, rfl, rfl, rfl, hfull⟩
  | succ n ih =>
    intro i p hbound hfull
    rw [pool_scan]
    by_cases hic : i = c
    · rw [if_pos hic]
      exact ih (i + 1) p (by omega) hfull
    · rw [if_neg hic]
      have halloc := full_arena_allocate_none (p.arenas i) (hfull i (by omega))
      have htry : try_arena p i = (none, { p with arenas := upd p.arenas i { p.arenas i with alloc_count := (p.arenas i).alloc_count + 1 } }) := by
        rw [try_arena, halloc]
      rw [htry]
      simp only []
      set p1 : Pool := { p with arenas := upd p.arenas i { p.arenas i with alloc_count := (p.arenas i).alloc_count + 1 } } with hp1
      have hnum1 : p1.num_arenas = p.num_arenas := rfl
      have hfull1 : ∀ j, j < p1.num_arenas → FullArena (p1.arenas j) := by
        intro j hj
        rw [hnum1] at hj
        show FullArena ((upd p.arenas i { p.arenas i with alloc_count := (p.arenas i).alloc_count + 1 }) j)
        by_cases hji : j = i
        · rw [hji, upd_self]
          exact full_arena_count_bump _ (hfull i (by omega))
        · rw [upd_ne _ _ _ hji]
          exact hfull j hj
      obtain ⟨p2, hres, h1, h2, h3, h4⟩ := ih (i + 1) p1 (by omega) hfull1
      rw [hnum1] at h1
      have h2' : p2.current_arena = p.current_arena := by
        rw [h2]
      have h3' : p2.block_size = p.block_size := by
        rw [h3]
      exact ⟨p2, hres, h1, h2', h3', h4⟩

/-- Running `arena_pool::allocate` on a pool whose populated arenas are all
full always reaches the growth step, with the counts and the hint
unchanged. -/
theorem pool_alloc_full_scan (p : Pool) (os : Option Nat)
    (hfull : ∀ j, j < p.num_arenas → FullArena (p.arenas j)) :
    ∃ p2, pool_allocate p os = pool_grow_local p2 p.num_arenas os ∧
      p2.num_arenas = p.num_arenas ∧ p2.current_arena = p.current_arena ∧
      (∀ j, j < p2.num_arenas → FullArena (p2.arenas j)) := by
  rw [pool_allocate]
  by_cases hcur : p.current_arena < p.num_arenas
  · rw [if_pos hcur]
    have halloc := full_arena_allocate_none (p.arenas p.current_arena)
      (hfull p.current_arena hcur)
    have htry : try_arena p p.current_arena = (none, { p with arenas := upd p.arenas p.current_arena { p.arenas p.current_arena with alloc_count := (p.arenas p.current_arena).alloc_count + 1 } }) := by
      rw [try_arena, halloc]
    rw [htry]
    simp only []
    set p1 : Pool := { p with arenas := upd p.arenas p.current_arena { p.arenas p.current_arena with alloc_count := (p.arenas p.current_arena).alloc_count + 1 } } with hp1
    have hfull1 : ∀ j, j < p1.num_arenas → FullArena (p1.arenas j) := by
      intro j hj
      show FullArena ((upd p.arenas p.current_arena { p.arenas p.current_arena with alloc_count := (p.arenas p.current_arena).alloc_count + 1 }) j)
      by_cases hji : j = p.current_arena
      · rw [hji, upd_self]
        exact full_arena_count_bump _ (hfull p.current_arena hcur)
      · rw [upd_ne _ _ _ hji]
        exact hfull j hj
    have hnum1 : p1.num_arenas = p.num_arenas := rfl
    obtain ⟨p2, hres, h1, h2, h3, h4⟩ := pool_scan_all_full p.current_arena
      p.num_arenas 0 p1 (by omega) hfull1
    rw [hres]
    rw [hnum1] at h1
    have h2' : p2.current_arena = p.current_arena := by
      rw [h2]
    exact ⟨p2, rfl, h1, h2', h4⟩
  · rw [if_neg hcur]
    simp only []
    obtain ⟨p2, hres, h1, h2, h3, h4⟩ := pool_scan_all_full p.current_arena
      p.num_arenas 0 p (by omega) hfull
    rw [hres]
    exact ⟨p2, rfl, h1, h2, h4⟩

/-- Claim C5: when all 16 arena slots of a pool are populated and every
arena is completely full, `arena_pool::allocate` returns `nullptr` and never
creates a 17th arena (`num_arenas` stays 16); and `allocator::allocate`,
upon receiving `nullptr` from the pool of an in-range size class, raises the
out-of-memory failure instead of returning a null pointer. -/
theorem C5_pool_exhaustion_raises_failure (p : Pool) (os : Option Nat)
    (hnum : p.num_arenas = max_arenas)
    (hfull : ∀ j, j < p.num_arenas → FullArena (p.arenas j)) :
    (pool_allocate p os).1 = none ∧
    (pool_allocate p os).2.num_arenas = max_arenas ∧
    (∀ (A : AllocatorState) (n sizeofT alignofT : Nat),
      n ≠ 0 →
      round_to_size_class (align_round (n * sizeofT) alignofT) ≠ 0 →
      ¬ (max_size < round_to_size_class (align_round (n * sizeofT) alignofT)) →
      A.pools (size_to_index ( round_to_size_class (align_round (n * sizeofT) alignofT))) = p →
      (allocator_allocate A n sizeofT alignofT os).1 = Except.error ()) := by
  obtain ⟨p2, heq, h1, h2, h4⟩ := pool_alloc_full_scan p os hfull
  have hgrow : pool_grow_local p2 p.num_arenas os = (none, p2) := by
    rw [pool_grow_local.eq_def, if_pos (by rw [hnum])]
  have hres : pool_allocate p os = (none, p2) := by rw [heq, hgrow]
  refine ⟨by rw [hres], ?_, ?_⟩
  · rw [hres]
    show p2.num_arenas = max_arenas
    omega
  intro A n sizeofT alignofT hn hsc0 hscmax hpool
  rw [allocator_allocate, if_neg hn]
  simp only []
  rw [if_neg (by push_neg; exact ⟨hsc0, by omega⟩)]
  rw [hpool, hres]

/-- Check of C5 on a concrete pool of sixteen completely full 4 MiB-block
arenas. -/
theorem C5_pool_exhaustion_raises_failure_witness :
    (pool_allocate { arenas := fun _ => { base_addr := 0, block_size := 4194304, bump_offset := usable_capacity 4194304, alloc_count := 0, l1 := fun _ => 0, l2 := fun _ => 0 }, num_arenas := 16, current_arena := 0, block_size := 4194304 : Pool } none).1 = none ∧
    (pool_allocate { arenas := fun _ => { base_addr := 0, block_size := 4194304, bump_offset := usable_capacity 4194304, alloc_count := 0, l1 := fun _ => 0, l2 := fun _ => 0 }, num_arenas := 16, current_arena := 0, block_size := 4194304 : Pool } none).2.num_arenas = max_arenas := by
  have h := C5_pool_exhaustion_raises_failure
    { arenas := fun _ => { base_addr := 0, block_size := 4194304, bump_offset := usable_capacity 4194304, alloc_count := 0, l1 := fun _ => 0, l2 := fun _ => 0 }, num_arenas := 16, current_arena := 0, block_size := 4194304 : Pool }
    none rfl (fun _ _ => ⟨le_refl _, fun _ _ => rfl⟩)
  exact ⟨h.1, h.2.1⟩

/-- Claim C6: a failed OS reservation during arena-pool growth produces
`nullptr` and leaves the pool as it was.  The local-policy growth path
checks the reservation before touching any field; the shared-policy growth
path reserves the slot by incrementing `num_arenas` and rolls it back with
`fetch_sub`, restoring the previous count, and publishes no arena pointer.
At the level of a whole `arena_pool::allocate` call with full arenas, the
failed growth attempt leaves `num_arenas` and `current_arena` unchanged. -/
theorem C6_failed_growth_rolls_back :
    (∀ p : Pool, pool_grow_local p p.num_arenas none = (none, p)) ∧
    (∀ p : Pool, pool_grow_shared p none = (none, p)) ∧
    (∀ p : Pool, (∀ j, j < p.num_arenas → FullArena (p.arenas j)) →
      (pool_allocate p none).1 = none ∧
      (pool_allocate p none).2.num_arenas = p.num_arenas ∧
      (pool_allocate p none).2.current_arena = p.current_arena) := by
  refine ⟨?_, ?_, ?_⟩
  · intro p
    rw [pool_grow_local.eq_def]
    split
    · rfl
    · rfl
  · intro p
    rw [pool_grow_shared.eq_def]
    split
    · rfl
    · show (none, { { p with num_arenas := p.num_arenas + 1 } with
          num_arenas := p.num_arenas + 1 - 1 }) = (none, p)
      cases p
      simp
  · intro p hfull
    obtain ⟨p2, heq, h1, h2, h4⟩ := pool_alloc_full_scan p none hfull
    have hgrow : pool_grow_local p2 p.num_arenas none = (none, p2) := by
      rw [pool_grow_local.eq_def]
      split
      · rfl
      · rfl
    have hres : pool_allocate p none = (none, p2) := by rw [heq, hgrow]
    exact ⟨by rw [hres], by rw [hres]; exact h1, by rw [hres]; exact h2⟩

/-- Check of C6 on a concrete one-slot pool holding a full arena: growth
with a failed reservation returns `nullptr` and the pool is unchanged. -/
theorem C6_failed_growth_rolls_back_witness :
    (pool_allocate { arenas := fun _ => { base_addr := 0, block_size := 4194304, bump_offset := usable_capacity 4194304, alloc_count := 0, l1 := fun _ => 0, l2 := fun _ => 0 }, num_arenas := 1, current_arena := 0, block_size := 4194304 : Pool } none).1 = none ∧
    (pool_allocate { arenas := fun _ => { base_addr := 0, block_size := 4194304, bump_offset := usable_capacity 4194304, alloc_count := 0, l1 := fun _ => 0, l2 := fun _ => 0 }, num_arenas := 1, current_arena := 0, block_size := 4194304 : Pool } none).2.num_arenas = 1 :=
  ⟨(C6_failed_growth_rolls_back.2.2 _ (fun _ _ => ⟨le_refl _, fun _ _ => rfl⟩)).1,
   (C6_failed_growth_rolls_back.2.2 _ (fun _ _ => ⟨le_refl _, fun _ _ => rfl⟩)).2.1⟩

/-- Claim C8: `allocator::allocate(0)` returns the null pointer with no
allocation and no state change, and `allocator::deallocate` with a null
pointer or a zero count returns immediately with no effect on any state. -/
theorem C8_zero_size_requests_are_noops (A : AllocatorState)
    (n sizeofT alignofT p : Nat) (os : Option Nat) :
    allocator_allocate A 0 sizeofT alignofT os = (Except.ok none, A) ∧
    allocator_deallocate A none n sizeofT alignofT = A ∧
    allocator_deallocate A (some p) 0 sizeofT alignofT = A := by
  refine ⟨?_, rfl, rfl⟩
  rw [allocator_allocate, if_pos rfl]

/-- Claim C10: `arena_pool::deallocate` with a pointer owned by none of the
populated arenas returns without modifying the pool: no arena state, no
count, and no hint changes. -/
theorem C10_pool_deallocate_unowned_is_noop (p : Pool) (ptr : Nat)
    (h : ∀ i, i < p.num_arenas → arena_owns (p.arenas i) ptr = false) :
    pool_deallocate p ptr = p := by
  rw [pool_deallocate]
  have hgen : ∀ fuel i, (∀ j, i ≤ j → j < i + fuel → arena_owns (p.arenas j) ptr = false) →
      pool_deallocate_scan ptr i fuel p = p := by
    intro fuel
    induction fuel with
    | zero => intro i _; rfl
    | succ n ih =>
      intro i hj
      rw [pool_deallocate_scan]
      rw [if_neg (by rw [hj i (le_refl i) (by omega)]; exact Bool.false_ne_true)]
      exact ih (i + 1) (fun j h1 h2 => hj j (by omega) (by omega))
  exact hgen p.num_arenas 0 (fun j h1 h2 => h j (by omega))

/-- Check of C10: a one-arena pool (arena at base 4096) and the unowned
pointer 0. -/
theorem C10_pool_deallocate_unowned_is_noop_witness :
    pool_deallocate { arenas := fun _ => fresh_arena 4096 8, num_arenas := 1, current_arena := 0, block_size := 8 : Pool } 0 =
    { arenas := fun _ => fresh_arena 4096 8, num_arenas := 1, current_arena := 0, block_size := 8 : Pool } := by
  apply C10_pool_deallocate_unowned_is_noop
  intro i _
  show arena_owns (fresh_arena 4096 8) 0 = false
  decide

end Acheron
